import Mathlib

/-!
Verification of the linear spin-wave theory (LSWT) scripts of the repository.

The development shallowly embeds the LSWT pipeline that appears (in close
variants) in `mag-core/tools_py/magdyn/tests/ferro.py`,
`mag-core/tools_py/magdyn/examples/ferro.py` and
`data/demos/mdanse_school_tut2_fm/fm.py`:

* the per-site spin-rotation frame builder (Rodrigues rotation, `u`/`v`
  vectors),
* the Fourier assembler for the coupling matrices `J(Q)` and `J(0)`,
* the 2N x 2N bosonic Hamiltonian assembler,
* the Bogoliubov solver (Cholesky factorisation, signature congruence
  transform, eigenvalues),
* the dispersion scan loop with its `except LinAlgError: pass` handler,
* the Bose-factor / `TakinSqw` layer of `fm.py`,
* the closed-form dispersion `disp` of `data/demos/magnon_fm/create_random_data.py`.

Real numbers model the floating-point doubles of numpy exactly (exact real
arithmetic); `numpy.linalg.cholesky` is modelled by a recursive Cholesky
factorisation that fails (`LinAlgError`) exactly when a pivot is not strictly
positive, and `numpy.linalg.eigvals` is modelled by the multiset of roots of
the characteristic polynomial.  Python exceptions are modelled with `Except`.
-/

namespace Magdyn

open Matrix Polynomial
open scoped ComplexConjugate ComplexOrder Real

noncomputable section

/-- Kinds of Python exceptions relevant to the scripts:
`numpy.linalg.LinAlgError` (raised by `la.cholesky`) and the built-in
`ZeroDivisionError` (raised by float division by exact zero). -/
inductive PyErr where
  | linAlg : PyErr
  | zeroDiv : PyErr
deriving DecidableEq

/-- The skew-symmetric (cross-product) matrix of `tests/ferro.py`, lines 58-62. -/
def skew (v : Fin 3 → ℝ) : Matrix (Fin 3) (Fin 3) ℝ :=
  !![0, v 2, -(v 1); -(v 2), 0, v 0; v 1, -(v 0), 0]

/-- `numpy.cross` for 3-vectors. -/
def cross (a b : Fin 3 → ℝ) : Fin 3 → ℝ :=
  ![a 1 * b 2 - a 2 * b 1, a 2 * b 0 - a 0 * b 2, a 0 * b 1 - a 1 * b 0]

/-- `numpy.linalg.norm` of a real 3-vector. -/
def norm3 (v : Fin 3 → ℝ) : ℝ := Real.sqrt (v ⬝ᵥ v)

/-- The global quantisation axis `[0, 0, 1]` (`zdir` in the scripts). -/
def zdir : Fin 3 → ℝ := ![0, 0, 1]

/-- Rodrigues' rotation formula as used on line 86 of `tests/ferro.py`:
`rot = (1-c) * outer(axis, axis) + diag(c,c,c) - skew(axis) * s`. -/
def rodrigues (axis : Fin 3 → ℝ) (c s : ℝ) : Matrix (Fin 3) (Fin 3) ℝ :=
  (1 - c) • vecMulVec axis axis + c • (1 : Matrix (Fin 3) (Fin 3) ℝ) - s • skew axis

/-- The spin-rotation matrix computed by the loop on lines 66-86 of
`tests/ferro.py`.  The spin direction is first normalised
(`Sdir = Sdir / la.norm(Sdir)`); the three branches (parallel to `z`,
antiparallel to `z`, generic) set the rotation axis and the cosine/sine of the
rotation angle; `np.allclose` comparisons become exact equality in the exact
real model. -/
def rotOf (Sdir0 : Fin 3 → ℝ) : Matrix (Fin 3) (Fin 3) ℝ :=
  let Sdir : Fin 3 → ℝ := fun i => Sdir0 i / norm3 Sdir0
  if Sdir = zdir then
    rodrigues ![0, 1, 0] 1 0
  else if Sdir = -zdir then
    rodrigues ![0, 1, 0] (-1) 0
  else
    let rotaxis := cross Sdir zdir
    let s := norm3 rotaxis
    let c := Sdir ⬝ᵥ zdir
    rodrigues (fun i => rotaxis i / s) c s

/-- `u = rot[0, :] + 1j * rot[1, :]` (line 87 of `tests/ferro.py`). -/
def frameU (Sdir : Fin 3 → ℝ) : Fin 3 → ℂ :=
  fun a => (rotOf Sdir 0 a : ℝ) + (rotOf Sdir 1 a : ℝ) * Complex.I

/-- `v = rot[2, :]` (line 88 of `tests/ferro.py`); a real vector. -/
def frameV (Sdir : Fin 3 → ℝ) : Fin 3 → ℝ := rotOf Sdir 2

/-- A magnetic site after the frame-builder loop has run: spin magnitude `S`
and the rotation-derived complex frame vectors `u` (complex) and `v` (real,
since `rot` is a real matrix). -/
structure Site where
  S : ℝ
  u : Fin 3 → ℂ
  v : Fin 3 → ℝ

/-- Build a site from its spin magnitude and spin direction, as the loop on
lines 66-88 of `tests/ferro.py` does. -/
def mkSite (S : ℝ) (Sdir : Fin 3 → ℝ) : Site :=
  ⟨S, frameU Sdir, frameV Sdir⟩

/-- A magnetic coupling: two site indices, scalar exchange `J`,
Dzyaloshinskii-Moriya vector `DMI` and the lattice translation `dist`. -/
structure Coupling (N : ℕ) where
  site1 : Fin N
  site2 : Fin N
  J : ℝ
  DMI : Fin 3 → ℝ
  dist : Fin 3 → ℝ

/-- The real interaction matrix of a coupling
(`J_real = diag(J,J,J) + skew(DMI)`, line 98 of `tests/ferro.py`). -/
def Jreal {N : ℕ} (c : Coupling N) : Matrix (Fin 3) (Fin 3) ℝ :=
  Matrix.diagonal (fun _ => c.J) + skew c.DMI

/-- A model: `N` sites and a list of couplings with valid site indices. -/
structure Model where
  N : ℕ
  sites : Fin N → Site
  couplings : List (Coupling N)

/-- Cast a real 3 x 3 matrix to a complex one. -/
def mapC (M : Matrix (Fin 3) (Fin 3) ℝ) : Matrix (Fin 3) (Fin 3) ℂ :=
  M.map (fun x => (x : ℂ))

/-- The Fourier phase factor of a coupling,
`np.exp(-1j * 2*pi * np.dot(dist, Qvec))` (line 118 of `tests/ferro.py`). -/
def phase {N : ℕ} (c : Coupling N) (Q : Fin 3 → ℝ) : ℂ :=
  Complex.exp (-((2 * π * (c.dist ⬝ᵥ Q) : ℝ) : ℂ) * Complex.I)

/-- `J_ft = J_real * exp(-2 pi i dist . Q)` (line 118 of `tests/ferro.py`). -/
def Jft {N : ℕ} (c : Coupling N) (Q : Fin 3 → ℝ) : Matrix (Fin 3) (Fin 3) ℂ :=
  phase c Q • mapC (Jreal c)

/-- The Fourier-transformed coupling array `J_fourier` of `tests/ferro.py`,
lines 109-120: each coupling accumulates (`+=`) `J_ft` at block
`[site1, site2]` and its conjugate transpose at block `[site2, site1]`. -/
def Jfourier {N : ℕ} (cs : List (Coupling N)) (Q : Fin 3 → ℝ) (i j : Fin N) :
    Matrix (Fin 3) (Fin 3) ℂ :=
  (cs.map fun c =>
    (if c.site1 = i ∧ c.site2 = j then Jft c Q else 0) +
    (if c.site2 = i ∧ c.site1 = j then (Jft c Q)ᴴ else 0)).sum

/-- The zero-momentum coupling array `J0_fourier` of `tests/ferro.py`,
lines 110-122: each coupling accumulates `J_real` at `[site1, site2]` and its
conjugate transpose at `[site2, site1]`. -/
def J0fourier {N : ℕ} (cs : List (Coupling N)) (i j : Fin N) :
    Matrix (Fin 3) (Fin 3) ℂ :=
  (cs.map fun c =>
    (if c.site1 = i ∧ c.site2 = j then mapC (Jreal c) else 0) +
    (if c.site2 = i ∧ c.site1 = j then (mapC (Jreal c))ᴴ else 0)).sum

/-- The real `v` vector of a site, cast to ℂ for matrix contractions. -/
def vC (s : Site) : Fin 3 → ℂ := fun a => (s.v a : ℂ)

/-- The symmetric prefactor `S = 0.5 * sqrt(S_i * S_j)` (line 139). -/
def Spre (m : Model) (i j : Fin m.N) : ℝ :=
  0.5 * Real.sqrt ((m.sites i).S * (m.sites j).S)

/-- The accumulated diagonal correction
`- sum_j S_j * v_i . J0_fourier[i,j] . v_j` (lines 142 and 145-146). -/
def diagCorr (m : Model) (i : Fin m.N) : ℂ :=
  -∑ j, ((m.sites j).S : ℂ) *
    (vC (m.sites i) ⬝ᵥ (J0fourier m.couplings i j) *ᵥ vC (m.sites j))

/-- Block `H[i, j]` of the Hamiltonian (lines 141-142). -/
def blockA (m : Model) (Q : Fin 3 → ℝ) : Matrix (Fin m.N) (Fin m.N) ℂ :=
  fun i j =>
    (Spre m i j : ℂ) *
      ((m.sites i).u ⬝ᵥ (Jfourier m.couplings Q i j) *ᵥ star (m.sites j).u) +
    if j = i then diagCorr m i else 0

/-- Block `H[N+i, N+j]` of the Hamiltonian (lines 143-146). -/
def blockAp (m : Model) (Q : Fin 3 → ℝ) : Matrix (Fin m.N) (Fin m.N) ℂ :=
  fun i j =>
    (Spre m i j : ℂ) *
      (star (m.sites i).u ⬝ᵥ (Jfourier m.couplings Q i j) *ᵥ (m.sites j).u) +
    if j = i then diagCorr m i else 0

/-- Block `H[i, N+j]` of the Hamiltonian (lines 147-148). -/
def blockB (m : Model) (Q : Fin 3 → ℝ) : Matrix (Fin m.N) (Fin m.N) ℂ :=
  fun i j =>
    (Spre m i j : ℂ) *
      ((m.sites i).u ⬝ᵥ (Jfourier m.couplings Q i j) *ᵥ (m.sites j).u)

/-- Block `H[N+i, j]` of the Hamiltonian (lines 149-150):
`(S * u_j . J_fourier[j,i] . u_i).conj()`. -/
def blockBp (m : Model) (Q : Fin 3 → ℝ) : Matrix (Fin m.N) (Fin m.N) ℂ :=
  fun i j =>
    star ((Spre m i j : ℂ) *
      ((m.sites j).u ⬝ᵥ (Jfourier m.couplings Q j i) *ᵥ (m.sites i).u))

/-- The assembled 2N x 2N Hamiltonian, in block-index form: `Sum.inl i` is the
row/column `i` of the code and `Sum.inr i` is row/column `N + i`. -/
def HamS (m : Model) (Q : Fin 3 → ℝ) :
    Matrix (Fin m.N ⊕ Fin m.N) (Fin m.N ⊕ Fin m.N) ℂ :=
  fromBlocks (blockA m Q) (blockB m Q) (blockBp m Q) (blockAp m Q)

/-- The assembled Hamiltonian with flat indices `0, ..., 2N-1`, exactly the
array `H` of `get_energies` (`tests/ferro.py` lines 128-150). -/
def HamF (m : Model) (Q : Fin 3 → ℝ) :
    Matrix (Fin (m.N + m.N)) (Fin (m.N + m.N)) ℂ :=
  reindex finSumFinEquiv finSumFinEquiv (HamS m Q)

/-- The head pivot element used by the Cholesky factorisation: the real
diagonal entry `H[0][0]` (for a Hermitian input the diagonal is real). -/
def cholPiv {n : ℕ} (H : Matrix (Fin (n + 1)) (Fin (n + 1)) ℂ) : ℝ :=
  (H 0 0).re

/-- The first column of the Cholesky factor below the diagonal:
`H[i+1][0] / sqrt(H[0][0])`. -/
def cholCol {n : ℕ} (H : Matrix (Fin (n + 1)) (Fin (n + 1)) ℂ) (i : Fin n) : ℂ :=
  H i.succ 0 / ((Real.sqrt (cholPiv H) : ℝ) : ℂ)

/-- The Schur complement on which the Cholesky factorisation recurses. -/
def cholSub {n : ℕ} (H : Matrix (Fin (n + 1)) (Fin (n + 1)) ℂ) :
    Matrix (Fin n) (Fin n) ℂ :=
  fun i j => H i.succ j.succ - cholCol H i * star (cholCol H j)

/-- Assemble the lower-triangular Cholesky factor from the pivot square root,
the first column and the factor of the Schur complement. -/
def cholAsm {n : ℕ} (H : Matrix (Fin (n + 1)) (Fin (n + 1)) ℂ)
    (L : Matrix (Fin n) (Fin n) ℂ) : Matrix (Fin (n + 1)) (Fin (n + 1)) ℂ :=
  Fin.cons (Fin.cons ((Real.sqrt (cholPiv H) : ℝ) : ℂ) 0)
    (fun i => Fin.cons (cholCol H i) (L i))

/-- Model of `numpy.linalg.cholesky` (LAPACK `potrf`): the unique
lower-triangular factorisation `H = L * Lᴴ` with positive real diagonal,
computed by block recursion on the Schur complement; it raises `LinAlgError`
exactly when a pivot is not strictly positive (`H` not positive definite). -/
def cholesky : {n : ℕ} → Matrix (Fin n) (Fin n) ℂ →
    Except PyErr (Matrix (Fin n) (Fin n) ℂ)
  | 0, _ => .ok 0
  | _ + 1, H =>
    if 0 < cholPiv H then Except.map (cholAsm H) (cholesky (cholSub H))
    else .error .linAlg

/-- The signature matrix `g = diag(+1 x N, -1 x N)` in block-index form
(`signs` on line 157 of `tests/ferro.py`). -/
def gS (N : ℕ) : Matrix (Fin N ⊕ Fin N) (Fin N ⊕ Fin N) ℂ :=
  fromBlocks 1 0 0 (-1)

/-- The signature matrix with flat indices. -/
def gF (N : ℕ) : Matrix (Fin (N + N)) (Fin (N + N)) ℂ :=
  reindex finSumFinEquiv finSumFinEquiv (gS N)

/-- The Bogoliubov solver step of `get_energies` (`tests/ferro.py` lines
156-167): Cholesky-factorise `H`, form `H_trafo = Cᴴ * g * C`, and return the
real parts of its eigenvalues (`np.real(la.eigvals(H_trafo))`), the
eigenvalues being the multiset of roots of the characteristic polynomial.
A `LinAlgError` of the Cholesky factorisation propagates. -/
def bogoliubov (N : ℕ) (H : Matrix (Fin (N + N)) (Fin (N + N)) ℂ) :
    Except PyErr (Multiset ℝ) :=
  match cholesky H with
  | .ok C => .ok (((Cᴴ * gF N * C).charpoly.roots).map Complex.re)
  | .error e => .error e

/-- `get_energies(Qvec)` of `tests/ferro.py` (lines 104-167) for a model:
assemble the Hamiltonian at `Q` and run the Bogoliubov solver on it. -/
def getEnergies (m : Model) (Q : Fin 3 → ℝ) : Except PyErr (Multiset ℝ) :=
  bogoliubov m.N (HamF m Q)

/-- The single-site ferromagnetic chain model: `S = 1`, `Sdir = [0,0,1]`,
one self-coupling with `J = -1`, no DMI, `dist = [1,0,0]`.  This is the
`is_ferromagnetic` branch of `tests/ferro.py` (lines 29-48) and also exactly
the model hard-coded in `fm.py` (lines 37-70, where `rot = diag(1,1,1)` and
`J_real = diag(-1,-1,-1)` are written out directly). -/
def ferroCoupling : Coupling 1 := ⟨0, 0, -1, ![0, 0, 0], ![1, 0, 0]⟩

def ferroModel : Model where
  N := 1
  sites := ![mkSite 1 ![0, 0, 1]]
  couplings := [ferroCoupling]

/-- The two-site antiferromagnetic chain model of `tests/ferro.py`
(lines 33-54): site 0 with moment `+z`, site 1 with moment `-z`, couplings
with `J = +1` between them at translations `[0,0,0]` and `[2,0,0]`. -/
def afmCoupling1 : Coupling 2 := ⟨0, 1, 1, ![0, 0, 0], ![0, 0, 0]⟩

def afmCoupling2 : Coupling 2 := ⟨1, 0, 1, ![0, 0, 0], ![2, 0, 0]⟩

def afmModel : Model where
  N := 2
  sites := ![mkSite 1 ![0, 0, 1], mkSite 1 ![0, 0, -1]]
  couplings := [afmCoupling1, afmCoupling2]

/-- One point of the dispersion-scan loop of `tests/ferro.py` (lines 178-187)
for the ferromagnetic model: on success the kept `(h, E)` pairs (with
`only_pos_E = True`, energies `E < 0` are skipped), and on `LinAlgError`
nothing at all (`except la.LinAlgError: pass`). -/
def scanPoint (h : ℝ) : Multiset (ℝ × ℝ) :=
  match getEnergies ferroModel ![h, 0, 0] with
  | .ok Es => (Es.filter fun E => 0 ≤ E).map fun E => (h, E)
  | .error _ => 0

/-- The flat scan output of `tests/ferro.py` (lines 176-187): the collection
of all `(h, E)` pairs appended to the lists `hs`/`Es` over a list of scan
positions. -/
def scanOut (qs : List ℝ) : Multiset (ℝ × ℝ) :=
  (qs.map scanPoint).sum

/-- The closed-form dispersion of the ferromagnetic chain at `Q = (h,0,0)`:
`E0 h = 2 - 2 cos(2 pi h)` (`= 2|J|S(1 - cos 2 pi h)` with `J = -1`, `S = 1`). -/
def E0 (h : ℝ) : ℝ := 2 - 2 * Real.cos (2 * π * h)

/-- The ferromagnetic dispersion `disp` of
`data/demos/magnon_fm/create_random_data.py` (lines 27-32):
`-2*J*S*(1 - cos(Q*d*2*pi))` with `J = -1`, `S = 1`, `d = 1`. -/
def disp (Q : ℝ) : ℝ :=
  let J : ℝ := -1; let S : ℝ := 1; let d : ℝ := 1;
  -2 * J * S * (1 - Real.cos (Q * d * 2 * π))

/-- `kB` in meV/K as computed in `fm.py` (line 141): `const.k / const.e * 1e3`
with the exact SI values of the Boltzmann constant and elementary charge. -/
def kB : ℝ := 1.380649e-23 / 1.602176634e-19 * 1e3

/-- The Bose factor `bose(E, T)` of `fm.py` (lines 145-149):
`1/(exp(|E|/(kB T)) - 1)`, plus `1` for `E >= 0`.  Python raises
`ZeroDivisionError` when the float denominator is exactly zero. -/
def bose (E T : ℝ) : Except PyErr ℝ :=
  if Real.exp (|E| / (kB * T)) - 1 = 0 then .error .zeroDiv
  else .ok (1 / (Real.exp (|E| / (kB * T)) - 1) + if 0 ≤ E then 1 else 0)

/-- The cut-off Bose factor `bose_cutoff(E, T, Ecut)` of `fm.py` (lines
151-159): below `|Ecut|` the energy is replaced by `sign(E) * |Ecut|`
(`np.sign(0) = 0`, matching `Real.sign`). -/
def boseCutoff (E T Ecut : ℝ) : Except PyErr ℝ :=
  if |E| < |Ecut| then bose (Real.sign E * |Ecut|) T else bose E T

/-- The Gaussian peak `gauss(x, x0, sig, amp)` of `fm.py` (lines 162-164). -/
def gauss (x x0 sig amp : ℝ) : ℝ :=
  amp * Real.exp (-(1 / 2) * ((x - x0) / sig) ^ 2) / (Real.sqrt (2 * π) * sig)

/-- Global parameters of the Takin interface of `fm.py` (lines 182-189). -/
def gSig : ℝ := 0.5
def gAmp : ℝ := 2
def gIncSig : ℝ := 0.02
def gIncAmp : ℝ := 1
def gT : ℝ := 300
def gBoseCut : ℝ := 0.01

/-- `TakinDisp(h, k, l)` of `fm.py` (lines 202-213): run `get_energies`,
catching only `ZeroDivisionError` (in which case `[0., 0.]` is returned); a
`LinAlgError` propagates.  The constant unit weight returned alongside the
energies is dropped here because `TakinSqw` never uses it. -/
def TakinDisp (h k l : ℝ) : Except PyErr (Multiset ℝ) :=
  match getEnergies ferroModel ![h, k, l] with
  | .ok Es => .ok Es
  | .error .zeroDiv => .ok {0}
  | .error e => .error e

/-- `TakinSqw(h, k, l, E)` of `fm.py` (lines 219-234): sum a Gaussian per
dispersion branch, multiply by the cut-off Bose factor, add the incoherent
elastic line; `ZeroDivisionError` anywhere in the body yields `0.`, any other
exception propagates. -/
def TakinSqw (h k l E : ℝ) : Except PyErr ℝ :=
  let body : Except PyErr ℝ := do
    let Es ← TakinDisp h k l
    let S := (Es.map fun Ep => gauss E Ep gSig gAmp).sum
    let b ← boseCutoff E gT gBoseCut
    pure (S * b + gauss E 0 gIncSig gIncAmp)
  match body with
  | .error .zeroDiv => .ok 0
  | r => r

/-! ### Properties of the Fourier assembler -/

lemma Jfourier_conjTranspose {N : ℕ} (cs : List (Coupling N)) (Q : Fin 3 → ℝ)
    (i j : Fin N) : Jfourier cs Q j i = (Jfourier cs Q i j)ᴴ := by
  induction cs with
  | nil => simp [Jfourier]
  | cons c cs ih =>
    simp only [Jfourier, List.map_cons, List.sum_cons] at ih ⊢
    rw [conjTranspose_add, ← ih]
    congr 1
    have h1 : (c.site1 = j ∧ c.site2 = i) = (c.site2 = i ∧ c.site1 = j) :=
      propext and_comm
    have h2 : (c.site2 = j ∧ c.site1 = i) = (c.site1 = i ∧ c.site2 = j) :=
      propext and_comm
    simp only [h1, h2]
    rw [conjTranspose_add]
    split_ifs <;> simp [add_comm]

lemma J0fourier_conjTranspose {N : ℕ} (cs : List (Coupling N)) (i j : Fin N) :
    J0fourier cs j i = (J0fourier cs i j)ᴴ := by
  induction cs with
  | nil => simp [J0fourier]
  | cons c cs ih =>
    simp only [J0fourier, List.map_cons, List.sum_cons] at ih ⊢
    rw [conjTranspose_add, ← ih]
    congr 1
    have h1 : (c.site1 = j ∧ c.site2 = i) = (c.site2 = i ∧ c.site1 = j) :=
      propext and_comm
    have h2 : (c.site2 = j ∧ c.site1 = i) = (c.site1 = i ∧ c.site2 = j) :=
      propext and_comm
    simp only [h1, h2]
    rw [conjTranspose_add]
    split_ifs <;> simp [add_comm]

lemma Jfourier_append {N : ℕ} (cs cs2 : List (Coupling N)) (Q : Fin 3 → ℝ)
    (i j : Fin N) :
    Jfourier (cs ++ cs2) Q i j = Jfourier cs Q i j + Jfourier cs2 Q i j := by
  simp [Jfourier, List.map_append, List.sum_append]

lemma J0fourier_append {N : ℕ} (cs cs2 : List (Coupling N)) (i j : Fin N) :
    J0fourier (cs ++ cs2) i j = J0fourier cs i j + J0fourier cs2 i j := by
  simp [J0fourier, List.map_append, List.sum_append]

/-- C7: the Fourier assembler places each coupling's contribution at block
`[site1, site2]` and its conjugate transpose at block `[site2, site1]`, and
accumulates with `+=`; hence after assembly every block pair satisfies
`J_fourier[j][i] = J_fourier[i][j]ᴴ` and `J0_fourier[j][i] = J0_fourier[i][j]ᴴ`,
and contributions of concatenated coupling lists (in particular of several
couplings between the same site pair) sum rather than overwrite. -/
theorem fourier_blocks_hermitian_and_additive {N : ℕ} (cs cs2 : List (Coupling N))
    (Q : Fin 3 → ℝ) (i j : Fin N) :
    Jfourier cs Q j i = (Jfourier cs Q i j)ᴴ ∧
    J0fourier cs j i = (J0fourier cs i j)ᴴ ∧
    Jfourier (cs ++ cs2) Q i j = Jfourier cs Q i j + Jfourier cs2 Q i j ∧
    J0fourier (cs ++ cs2) i j = J0fourier cs i j + J0fourier cs2 i j :=
  ⟨Jfourier_conjTranspose cs Q i j, J0fourier_conjTranspose cs i j,
    Jfourier_append cs cs2 Q i j, J0fourier_append cs cs2 i j⟩

/-! ### Hermiticity of the assembled Hamiltonian -/

lemma J0fourier_entry_star {N : ℕ} (cs : List (Coupling N)) (i j : Fin N)
    (a b : Fin 3) : star (J0fourier cs i j a b) = J0fourier cs i j a b := by
  induction cs with
  | nil => simp [J0fourier]
  | cons c cs ih =>
    simp only [J0fourier, List.map_cons, List.sum_cons, Matrix.add_apply] at ih ⊢
    rw [star_add, star_add, ih]
    congr 1
    congr 1
    · split_ifs <;>
        simp [mapC, Matrix.map_apply, Complex.star_def, Complex.conj_ofReal]
    · split_ifs <;>
        simp [mapC, Matrix.map_apply, Matrix.conjTranspose_apply,
          Complex.star_def, Complex.conj_ofReal]

lemma diagCorr_star (m : Model) (i : Fin m.N) :
    star (diagCorr m i) = diagCorr m i := by
  simp only [diagCorr, star_neg, star_sum, dotProduct, mulVec,
    Finset.mul_sum, vC]
  congr 1
  refine Finset.sum_congr rfl fun j _ => Finset.sum_congr rfl fun a _ =>
    Finset.sum_congr rfl fun b _ => ?_
  simp [star_mul', J0fourier_entry_star]

lemma star_dot_mul_vec (x y : Fin 3 → ℂ) (M : Matrix (Fin 3) (Fin 3) ℂ) :
    star (x ⬝ᵥ M *ᵥ y) = star y ⬝ᵥ Mᴴ *ᵥ star x := by
  simp only [dotProduct, mulVec, Finset.mul_sum, star_sum]
  rw [Finset.sum_comm]
  refine Finset.sum_congr rfl fun b _ => Finset.sum_congr rfl fun a _ => ?_
  simp only [star_mul', conjTranspose_apply, Pi.star_apply]
  ring

lemma Spre_symm (m : Model) (i j : Fin m.N) : Spre m i j = Spre m j i := by
  simp [Spre, mul_comm]

lemma blockA_herm (m : Model) (Q : Fin 3 → ℝ) : (blockA m Q)ᴴ = blockA m Q := by
  ext i j
  simp only [conjTranspose_apply, blockA, star_add, star_mul']
  have hJ : (Jfourier m.couplings Q j i)ᴴ = Jfourier m.couplings Q i j := by
    rw [Jfourier_conjTranspose, conjTranspose_conjTranspose]
  rw [star_dot_mul_vec, star_star, hJ]
  have hite : star (if i = j then diagCorr m j else 0) =
      (if j = i then diagCorr m i else 0) := by
    rcases eq_or_ne i j with h | h
    · subst h; simp [diagCorr_star]
    · simp [h, h.symm]
  rw [hite]
  simp [Spre_symm m j i]

lemma blockAp_herm (m : Model) (Q : Fin 3 → ℝ) :
    (blockAp m Q)ᴴ = blockAp m Q := by
  ext i j
  simp only [conjTranspose_apply, blockAp, star_add, star_mul']
  have hJ : (Jfourier m.couplings Q j i)ᴴ = Jfourier m.couplings Q i j := by
    rw [Jfourier_conjTranspose, conjTranspose_conjTranspose]
  rw [star_dot_mul_vec, star_star, hJ]
  have hite : star (if i = j then diagCorr m j else 0) =
      (if j = i then diagCorr m i else 0) := by
    rcases eq_or_ne i j with h | h
    · subst h; simp [diagCorr_star]
    · simp [h, h.symm]
  rw [hite]
  simp [Spre_symm m j i]

lemma blockBp_eq (m : Model) (Q : Fin 3 → ℝ) : blockBp m Q = (blockB m Q)ᴴ := by
  ext i j
  simp only [blockBp, blockB, conjTranspose_apply]
  rw [Spre_symm]

lemma hamS_herm (m : Model) (Q : Fin 3 → ℝ) : (HamS m Q)ᴴ = HamS m Q := by
  rw [HamS, fromBlocks_conjTranspose, blockA_herm, blockAp_herm, blockBp_eq,
    conjTranspose_conjTranspose]

/-- C1: for every model (any sites with their frame vectors `u`, `v` — in
particular the `Sdir`-derived frames built by `mkSite` — and any coupling
list) and every momentum transfer `Q`, the assembled 2N x 2N Hamiltonian is
exactly Hermitian: `H[a][b] = conj (H[b][a])` for all indices. -/
theorem assembled_hamiltonian_hermitian (m : Model) (Q : Fin 3 → ℝ)
    (a b : Fin (m.N + m.N)) :
    HamF m Q a b = (starRingEnd ℂ) (HamF m Q b a) := by
  have h := congrFun (congrFun (hamS_herm m Q) (finSumFinEquiv.symm a))
    (finSumFinEquiv.symm b)
  rw [conjTranspose_apply] at h
  simp only [HamF, reindex_apply, submatrix_apply]
  rw [← h]
  rfl

/-! ### The frame-builder rotation matrix -/

lemma rodrigues_entries (a : Fin 3 → ℝ) (c s : ℝ) :
    rodrigues a c s =
      !![(1 - c) * (a 0 * a 0) + c, (1 - c) * (a 0 * a 1) - s * a 2,
           (1 - c) * (a 0 * a 2) + s * a 1;
         (1 - c) * (a 1 * a 0) + s * a 2, (1 - c) * (a 1 * a 1) + c,
           (1 - c) * (a 1 * a 2) - s * a 0;
         (1 - c) * (a 2 * a 0) - s * a 1, (1 - c) * (a 2 * a 1) + s * a 0,
           (1 - c) * (a 2 * a 2) + c] := by
  rw [eta_fin_three (rodrigues a c s)]
  refine congrArg Matrix.of
    (vec3_eq (vec3_eq ?_ ?_ ?_) (vec3_eq ?_ ?_ ?_) (vec3_eq ?_ ?_ ?_)) <;>
    (simp [rodrigues, skew, vecMulVec_apply, Matrix.one_apply]; try ring)

lemma rodrigues_transpose (a : Fin 3 → ℝ) (c s : ℝ) :
    (rodrigues a c s)ᵀ = rodrigues a c (-s) := by
  rw [eta_fin_three ((rodrigues a c s)ᵀ), eta_fin_three (rodrigues a c (-s))]
  refine congrArg Matrix.of
    (vec3_eq (vec3_eq ?_ ?_ ?_) (vec3_eq ?_ ?_ ?_) (vec3_eq ?_ ?_ ?_)) <;>
    (simp [rodrigues, skew, vecMulVec_apply, Matrix.one_apply,
      Matrix.transpose_apply]; try ring; try exact Or.inl trivial)

lemma rodrigues_mul_transpose (a : Fin 3 → ℝ) (c s : ℝ)
    (ha : a 0 * a 0 + a 1 * a 1 + a 2 * a 2 = 1) (hcs : c * c + s * s = 1) :
    rodrigues a c s * (rodrigues a c s)ᵀ = 1 := by
  rw [rodrigues_transpose, rodrigues_entries a c s, rodrigues_entries a c (-s),
    Matrix.mul_fin_three, one_fin_three]
  refine congrArg Matrix.of
    (vec3_eq (vec3_eq ?_ ?_ ?_) (vec3_eq ?_ ?_ ?_) (vec3_eq ?_ ?_ ?_))
  · linear_combination ((1 - c) ^ 2 * a 0 ^ 2 + s ^ 2) * ha + (1 - a 0 ^ 2) * hcs
  · linear_combination (a 0 * a 1 * (1 - c) ^ 2) * ha + (-(a 0 * a 1)) * hcs
  · linear_combination (a 0 * a 2 * (1 - c) ^ 2) * ha + (-(a 0 * a 2)) * hcs
  · linear_combination (a 0 * a 1 * (1 - c) ^ 2) * ha + (-(a 0 * a 1)) * hcs
  · linear_combination ((1 - c) ^ 2 * a 1 ^ 2 + s ^ 2) * ha + (1 - a 1 ^ 2) * hcs
  · linear_combination (a 1 * a 2 * (1 - c) ^ 2) * ha + (-(a 1 * a 2)) * hcs
  · linear_combination (a 0 * a 2 * (1 - c) ^ 2) * ha + (-(a 0 * a 2)) * hcs
  · linear_combination (a 1 * a 2 * (1 - c) ^ 2) * ha + (-(a 1 * a 2)) * hcs
  · linear_combination ((1 - c) ^ 2 * a 2 ^ 2 + s ^ 2) * ha + (1 - a 2 ^ 2) * hcs

lemma rodrigues_det (a : Fin 3 → ℝ) (c s : ℝ)
    (ha : a 0 * a 0 + a 1 * a 1 + a 2 * a 2 = 1) (hcs : c * c + s * s = 1) :
    (rodrigues a c s).det = 1 := by
  rw [rodrigues_entries, Matrix.det_fin_three]
  simp only [Matrix.cons_val', Matrix.cons_val_zero, Matrix.cons_val_one,
    Matrix.cons_val_two, Matrix.head_cons, Matrix.vecHead, Matrix.vecTail,
    Matrix.empty_val', Matrix.cons_val_fin_one, Matrix.head_fin_const,
    Matrix.of_apply, Function.comp_apply, Fin.succ_zero_eq_one]
  linear_combination ((1 - c) * s ^ 2 * ((a 0 * a 0 + a 1 * a 1 + a 2 * a 2) + 1) +
    (1 - c) * c ^ 2 + c * s ^ 2) * ha + hcs

lemma dot_self_nonneg (v : Fin 3 → ℝ) : 0 ≤ v ⬝ᵥ v :=
  Finset.sum_nonneg fun k _ => mul_self_nonneg (v k)

lemma dot_self_pos (v : Fin 3 → ℝ) (hv : v ≠ 0) : 0 < v ⬝ᵥ v := by
  obtain ⟨i, hi⟩ := Function.ne_iff.mp hv
  have h1 : 0 < v i * v i := mul_self_pos.mpr (by simpa using hi)
  have h2 : v i * v i ≤ ∑ k, v k * v k :=
    Finset.single_le_sum (fun k _ => mul_self_nonneg (v k)) (Finset.mem_univ i)
  have h3 : v ⬝ᵥ v = ∑ k, v k * v k := rfl
  linarith

lemma norm3_mul_self (v : Fin 3 → ℝ) : norm3 v * norm3 v = v ⬝ᵥ v :=
  Real.mul_self_sqrt (dot_self_nonneg v)

lemma cross_zdir (v : Fin 3 → ℝ) : cross v zdir = ![v 1, -(v 0), 0] := by
  funext i
  fin_cases i <;> simp [cross, zdir]

/-- C8: for every nonzero spin direction, the rotation matrix built by the
frame builder (identity-like case, antiparallel case with axis `(0,1,0)`, and
the generic Rodrigues case) is orthogonal with `R * Rᵀ = 1` and `det R = 1`. -/
theorem frame_rotation_orthogonal (Sdir : Fin 3 → ℝ) (h : Sdir ≠ 0) :
    rotOf Sdir * (rotOf Sdir)ᵀ = 1 ∧ (rotOf Sdir).det = 1 := by
  have hpos : 0 < Sdir ⬝ᵥ Sdir := dot_self_pos Sdir h
  have hn0 : norm3 Sdir ≠ 0 := by
    rw [norm3]
    exact ne_of_gt (Real.sqrt_pos.mpr hpos)
  simp only [rotOf]
  set Sd : Fin 3 → ℝ := fun i => Sdir i / norm3 Sdir with hSd
  have hunit : Sd 0 * Sd 0 + Sd 1 * Sd 1 + Sd 2 * Sd 2 = 1 := by
    have hdot : Sdir 0 * Sdir 0 + Sdir 1 * Sdir 1 + Sdir 2 * Sdir 2 =
        norm3 Sdir * norm3 Sdir := by
      rw [norm3_mul_self]
      simp [dotProduct, Fin.sum_univ_three]
    simp only [hSd]
    field_simp
    linarith
  split_ifs with h1 h2
  · refine ⟨rodrigues_mul_transpose _ _ _ ?_ ?_, rodrigues_det _ _ _ ?_ ?_⟩ <;>
      norm_num
  · refine ⟨rodrigues_mul_transpose _ _ _ ?_ ?_, rodrigues_det _ _ _ ?_ ?_⟩ <;>
      norm_num
  · have hcross : cross Sd zdir = ![Sd 1, -(Sd 0), 0] := cross_zdir Sd
    have hsnn : 0 ≤ cross Sd zdir ⬝ᵥ cross Sd zdir := dot_self_nonneg _
    have hss : norm3 (cross Sd zdir) * norm3 (cross Sd zdir) =
        Sd 1 * Sd 1 + Sd 0 * Sd 0 := by
      rw [norm3_mul_self, hcross]
      simp [dotProduct, Fin.sum_univ_three]
    have hs0 : norm3 (cross Sd zdir) ≠ 0 := by
      intro hz
      have hzero : Sd 1 * Sd 1 + Sd 0 * Sd 0 = 0 := by
        rw [← hss, hz, mul_zero]
      have h20 : Sd 0 = 0 := by nlinarith [mul_self_nonneg (Sd 0), mul_self_nonneg (Sd 1)]
      have h21 : Sd 1 = 0 := by nlinarith [mul_self_nonneg (Sd 0), mul_self_nonneg (Sd 1)]
      have h22 : Sd 2 * Sd 2 = 1 := by rw [h20, h21] at hunit; linarith
      rcases mul_self_eq_one_iff.mp h22 with h2p | h2n
      · exact h1 (by funext i; fin_cases i <;> simp [zdir, h20, h21, h2p])
      · exact h2 (by funext i; fin_cases i <;> simp [zdir, h20, h21, h2n])
    have hc : Sd ⬝ᵥ zdir = Sd 2 := by simp [dotProduct, zdir, Fin.sum_univ_three]
    have hs0L : norm3 ![Sd 1, -(Sd 0), 0] ≠ 0 := by
      rw [← hcross]; exact hs0
    have hssL : norm3 ![Sd 1, -(Sd 0), 0] * norm3 ![Sd 1, -(Sd 0), 0] =
        Sd 1 * Sd 1 + Sd 0 * Sd 0 := by
      rw [← hcross]; exact hss
    have haxis : (fun i => cross Sd zdir i / norm3 (cross Sd zdir)) 0 *
          (fun i => cross Sd zdir i / norm3 (cross Sd zdir)) 0 +
        (fun i => cross Sd zdir i / norm3 (cross Sd zdir)) 1 *
          (fun i => cross Sd zdir i / norm3 (cross Sd zdir)) 1 +
        (fun i => cross Sd zdir i / norm3 (cross Sd zdir)) 2 *
          (fun i => cross Sd zdir i / norm3 (cross Sd zdir)) 2 = 1 := by
      simp only [hcross]
      simp only [Matrix.cons_val_zero, Matrix.cons_val_one, Matrix.head_cons,
        Matrix.cons_val_two, Matrix.vecHead, Matrix.vecTail, Function.comp_apply,
        Fin.succ_zero_eq_one]
      field_simp
      linarith [hssL]
    have hcs : Sd ⬝ᵥ zdir * (Sd ⬝ᵥ zdir) +
        norm3 (cross Sd zdir) * norm3 (cross Sd zdir) = 1 := by
      rw [hc, hss]
      linarith
    exact ⟨rodrigues_mul_transpose _ _ _ haxis hcs, rodrigues_det _ _ _ haxis hcs⟩

/-- Witness for C8 at the concrete spin direction `[0, 0, 1]`. -/
theorem frame_rotation_orthogonal_witness :
    (![0, 0, 1] : Fin 3 → ℝ) ≠ 0 ∧
    (rotOf ![0, 0, 1] * (rotOf ![0, 0, 1])ᵀ = 1 ∧ (rotOf ![0, 0, 1]).det = 1) := by
  have hne : (![0, 0, 1] : Fin 3 → ℝ) ≠ 0 := by
    intro hz
    have := congrFun hz 2
    norm_num at this
  exact ⟨hne, frame_rotation_orthogonal ![0, 0, 1] hne⟩

/-! ### The frame builder on a zero spin direction (no error is raised) -/

lemma norm3_zero_vec : norm3 ![(0 : ℝ), 0, 0] = 0 := by
  have : (![(0 : ℝ), 0, 0] ⬝ᵥ ![(0 : ℝ), 0, 0]) = 0 := by
    simp [dotProduct, Fin.sum_univ_three]
  rw [norm3, this, Real.sqrt_zero]

lemma sd_of_zero_vec :
    (fun i => ![(0 : ℝ), 0, 0] i / norm3 ![(0 : ℝ), 0, 0]) = ![(0 : ℝ), 0, 0] := by
  funext i
  fin_cases i <;> simp

lemma rotOf_zero_vec : rotOf ![(0 : ℝ), 0, 0] = 0 := by
  simp only [rotOf]
  rw [sd_of_zero_vec]
  rw [if_neg, if_neg]
  · have hcross : cross ![(0 : ℝ), 0, 0] zdir = ![(0 : ℝ), 0, 0] := by
      rw [cross_zdir]
      funext i
      fin_cases i <;> simp
    rw [hcross, sd_of_zero_vec, norm3_zero_vec]
    have hdot : (![(0 : ℝ), 0, 0] ⬝ᵥ zdir) = 0 := by
      simp [dotProduct, zdir, Fin.sum_univ_three]
    rw [hdot]
    ext i j
    fin_cases i <;> fin_cases j <;>
      simp [rodrigues, skew, vecMulVec_apply, Matrix.one_apply]
  · intro hz
    have := congrFun hz 2
    simp [zdir] at this
  · intro hz
    have := congrFun hz 2
    simp [zdir] at this

/-- C9 (counterexample): supplying the zero spin direction to the frame
builder is not reported as an error; `mkSite` silently constructs a site whose
frame is the degenerate pair `u = 0`, `v = 0` (numpy produces a NaN frame with
only a runtime warning; in the exact model the division by the zero norm
gives zeros). -/
theorem zero_sdir_site_constructed :
    mkSite 1 ![0, 0, 0] = ⟨1, fun _ => 0, fun _ => 0⟩ := by
  rw [mkSite]
  have hu : frameU ![(0 : ℝ), 0, 0] = fun _ => 0 := by
    funext a
    simp [frameU, rotOf_zero_vec]
  have hv : frameV ![(0 : ℝ), 0, 0] = fun _ => 0 := by
    funext a
    simp [frameV, rotOf_zero_vec]
  rw [hu, hv]

/-- C9 (amended): the frame builder does not reject a zero-length `Sdir`; it
divides by the zero norm and silently produces the zero rotation matrix
(determinant `0`, not a rotation), from which the degenerate frame is built. -/
theorem zero_sdir_degenerate_rotation :
    rotOf ![0, 0, 0] = 0 ∧ (rotOf ![(0 : ℝ), 0, 0]).det = 0 := by
  refine ⟨rotOf_zero_vec, ?_⟩
  rw [rotOf_zero_vec]
  simp

/-! ### Specification of the Cholesky factorisation -/

lemma cholesky_zero (H : Matrix (Fin 0) (Fin 0) ℂ) : cholesky H = .ok 0 := rfl

lemma cholesky_succ {n : ℕ} (H : Matrix (Fin (n + 1)) (Fin (n + 1)) ℂ) :
    cholesky H =
      if 0 < cholPiv H then Except.map (cholAsm H) (cholesky (cholSub H))
      else .error .linAlg := rfl

lemma cholSub_herm {n : ℕ} (H : Matrix (Fin (n + 1)) (Fin (n + 1)) ℂ)
    (hH : ∀ i j, H i j = star (H j i)) (i j : Fin n) :
    cholSub H i j = star (cholSub H j i) := by
  simp only [cholSub, star_sub, star_mul', star_star]
  rw [← hH]
  ring

lemma H00_real {n : ℕ} (H : Matrix (Fin (n + 1)) (Fin (n + 1)) ℂ)
    (hH : ∀ i j, H i j = star (H j i)) : H 0 0 = ((cholPiv H : ℝ) : ℂ) := by
  have h := hH 0 0
  have him : (H 0 0).im = 0 := by
    have h2 := congrArg Complex.im h
    simp only [Complex.star_def, Complex.conj_im] at h2
    linarith
  apply Complex.ext <;> simp [cholPiv, him]

theorem cholesky_spec {n : ℕ} :
    ∀ H : Matrix (Fin n) (Fin n) ℂ, (∀ i j, H i j = star (H j i)) →
    ∀ L, cholesky H = .ok L →
      (∀ i j : Fin n, (i : ℕ) < (j : ℕ) → L i j = 0) ∧
      (∀ i, 0 < (L i i).re ∧ (L i i).im = 0) ∧
      L * Lᴴ = H := by
  induction n with
  | zero =>
    intro H hH L hL
    rw [cholesky_zero] at hL
    have hL0 : L = 0 := (Except.ok.inj hL).symm
    subst hL0
    refine ⟨fun i => i.elim0, fun i => i.elim0, ?_⟩
    ext i j
    exact i.elim0
  | succ n ih =>
    intro H hH L hL
    rw [cholesky_succ] at hL
    by_cases hα : 0 < cholPiv H
    swap
    · rw [if_neg hα] at hL
      exact absurd hL (by simp)
    rw [if_pos hα] at hL
    cases hS : cholesky (cholSub H) with
    | error e =>
      rw [hS] at hL
      exact absurd hL (by simp [Except.map])
    | ok L2 =>
    rw [hS] at hL
    simp only [Except.map, Except.ok.injEq] at hL
    subst hL
    obtain ⟨hlow, hdiag, hmul⟩ := ih (cholSub H) (cholSub_herm H hH) L2 hS
    have hs0 : Real.sqrt (cholPiv H) ≠ 0 := ne_of_gt (Real.sqrt_pos.mpr hα)
    have hl0 : ((Real.sqrt (cholPiv H) : ℝ) : ℂ) ≠ 0 := by
      exact_mod_cast hs0
    refine ⟨?_, ?_, ?_⟩
    · intro i j hij
      rcases Fin.eq_zero_or_eq_succ i with rfl | ⟨i2, rfl⟩
      · rcases Fin.eq_zero_or_eq_succ j with rfl | ⟨j2, rfl⟩
        · exact absurd hij (by simp)
        · simp [cholAsm]
      · rcases Fin.eq_zero_or_eq_succ j with rfl | ⟨j2, rfl⟩
        · exact absurd hij (by simp)
        · have h2 : (i2 : ℕ) < (j2 : ℕ) := by
            simpa [Fin.val_succ] using hij
          simp [cholAsm, hlow i2 j2 h2]
    · intro i
      rcases Fin.eq_zero_or_eq_succ i with rfl | ⟨i2, rfl⟩
      · constructor
        · simp [cholAsm, Real.sqrt_pos, hα]
        · simp [cholAsm]
      · simpa [cholAsm] using hdiag i2
    · ext i j
      rw [Matrix.mul_apply, Fin.sum_univ_succ]
      have hsub : ∀ a b : Fin n, ∑ k, L2 a k * star (L2 b k) = cholSub H a b := by
        intro a b
        conv_rhs => rw [← hmul]
        rw [Matrix.mul_apply]
        simp only [conjTranspose_apply]
      rcases Fin.eq_zero_or_eq_succ i with rfl | ⟨i2, rfl⟩ <;>
        rcases Fin.eq_zero_or_eq_succ j with rfl | ⟨j2, rfl⟩
      · simp only [cholAsm, Fin.cons_zero, conjTranspose_apply, Fin.cons_succ,
          Pi.zero_apply, zero_mul, mul_zero, Finset.sum_const_zero, add_zero]
        rw [H00_real H hH]
        simp only [Complex.star_def, Complex.conj_ofReal]
        rw [← Complex.ofReal_mul, Real.mul_self_sqrt hα.le]
      · simp only [cholAsm, Fin.cons_zero, conjTranspose_apply, Fin.cons_succ]
        have hstar : star (cholCol H j2) = H 0 j2.succ /
            ((Real.sqrt (cholPiv H) : ℝ) : ℂ) := by
          rw [cholCol, star_div₀, ← hH]
          congr 1
          simp [Complex.star_def, Complex.conj_ofReal]
        rw [hstar]
        simp only [Pi.zero_apply, star_zero, zero_mul, mul_zero,
          Finset.sum_const_zero, add_zero]
        rw [mul_comm, div_mul_cancel₀ _ hl0]
      · simp only [cholAsm, Fin.cons_zero, conjTranspose_apply, Fin.cons_succ]
        have hstar : star ((Real.sqrt (cholPiv H) : ℝ) : ℂ) =
            ((Real.sqrt (cholPiv H) : ℝ) : ℂ) := by
          simp [Complex.star_def, Complex.conj_ofReal]
        rw [hstar]
        simp only [Pi.zero_apply, star_zero, zero_mul, mul_zero,
          Finset.sum_const_zero, add_zero]
        rw [cholCol, div_mul_cancel₀ _ hl0]
      · simp only [cholAsm, Fin.cons_zero, conjTranspose_apply, Fin.cons_succ]
        rw [hsub i2 j2, cholSub]
        ring

lemma posdef_pivot_pos {n : ℕ} (H : Matrix (Fin (n + 1)) (Fin (n + 1)) ℂ)
    (hpd : H.PosDef) : 0 < cholPiv H := by
  have he : (Pi.single (0 : Fin (n + 1)) (1 : ℂ) : Fin (n + 1) → ℂ) ≠ 0 := by
    intro hz
    have h0 := congrFun hz 0
    simp at h0
  have h1 := hpd.2 _ he
  have hs : star (Pi.single (0 : Fin (n + 1)) (1 : ℂ) : Fin (n + 1) → ℂ) =
      (Pi.single (0 : Fin (n + 1)) (1 : ℂ) : Fin (n + 1) → ℂ) := by
    funext k
    rcases eq_or_ne k 0 with rfl | hk
    · simp [Pi.single_apply]
    · simp [Pi.single_apply, hk]
  have h2 : star (Pi.single (0 : Fin (n + 1)) (1 : ℂ) : Fin (n + 1) → ℂ) ⬝ᵥ
      H *ᵥ (Pi.single (0 : Fin (n + 1)) (1 : ℂ) : Fin (n + 1) → ℂ) = H 0 0 := by
    rw [Matrix.mulVec_single, hs, Matrix.single_dotProduct]
    simp
  rw [h2] at h1
  rw [cholPiv]
  have h3 := Complex.lt_def.mp h1
  simpa using h3.1

lemma hermitian_entry {n : ℕ} {H : Matrix (Fin n) (Fin n) ℂ}
    (hpd : H.IsHermitian) (i j : Fin n) : H i j = star (H j i) :=
  (congrFun (congrFun hpd i) j).symm

lemma posdef_cholSub {n : ℕ} (H : Matrix (Fin (n + 1)) (Fin (n + 1)) ℂ)
    (hpd : H.PosDef) : (cholSub H).PosDef := by
  have hherm : ∀ i j, H i j = star (H j i) := hermitian_entry hpd.1
  have hα : 0 < cholPiv H := posdef_pivot_pos H hpd
  have hs0 : Real.sqrt (cholPiv H) ≠ 0 := ne_of_gt (Real.sqrt_pos.mpr hα)
  have hl0 : ((Real.sqrt (cholPiv H) : ℝ) : ℂ) ≠ 0 := by exact_mod_cast hs0
  have hl0star : star ((Real.sqrt (cholPiv H) : ℝ) : ℂ) =
      ((Real.sqrt (cholPiv H) : ℝ) : ℂ) := by
    simp [Complex.star_def, Complex.conj_ofReal]
  constructor
  · ext i j
    rw [conjTranspose_apply]
    exact (cholSub_herm H hherm i j).symm
  · intro y hy
    set l0 : ℂ := ((Real.sqrt (cholPiv H) : ℝ) : ℂ) with hl0def
    set T : ℂ := ∑ b, star (cholCol H b) * y b with hTdef
    set x : Fin (n + 1) → ℂ := Fin.cons (-(T / l0)) y with hxdef
    have hx : x ≠ 0 := by
      intro hz
      apply hy
      funext k
      have hk := congrFun hz k.succ
      simpa [hxdef, Fin.cons_succ] using hk
    have e1 : H 0 0 = l0 * l0 := by
      rw [H00_real H hherm, hl0def, ← Complex.ofReal_mul,
        Real.mul_self_sqrt hα.le]
    have e2 : ∀ b : Fin n, H 0 b.succ = star (cholCol H b) * l0 := by
      intro b
      rw [cholCol, star_div₀, hl0star, div_mul_cancel₀ _ hl0, ← hherm]
    have e3 : ∀ a : Fin n, H a.succ 0 = cholCol H a * l0 := by
      intro a
      rw [cholCol, div_mul_cancel₀ _ hl0]
    have e4 : ∀ a b : Fin n, H a.succ b.succ =
        cholSub H a b + cholCol H a * star (cholCol H b) := by
      intro a b
      rw [cholSub]
      ring
    have hrow : ∀ a2 : Fin (n + 1), ∑ b2, H a2 b2 * x b2 =
        H a2 0 * x 0 + ∑ b, H a2 b.succ * y b := by
      intro a2
      rw [Fin.sum_univ_succ, hxdef]
      simp [Fin.cons_succ]
    have hexp : star x ⬝ᵥ H *ᵥ x =
        star (x 0) * (H 0 0 * x 0 + ∑ b, H 0 b.succ * y b) +
        ∑ a, star (y a) * (H a.succ 0 * x 0 + ∑ b, H a.succ b.succ * y b) := by
      simp only [dotProduct, mulVec, Pi.star_apply]
      rw [Fin.sum_univ_succ, hrow 0]
      have hsum2 : ∑ a : Fin n, star (x a.succ) * (∑ b2, H a.succ b2 * x b2) =
          ∑ a : Fin n, star (y a) *
            (H a.succ 0 * x 0 + ∑ b, H a.succ b.succ * y b) := by
        refine Finset.sum_congr rfl fun a _ => ?_
        rw [hrow a.succ]
        rw [hxdef]
        simp [Fin.cons_succ]
      rw [hsum2]
    have hTs : star T = ∑ a, cholCol H a * star (y a) := by
      rw [hTdef, star_sum]
      refine Finset.sum_congr rfl fun a _ => ?_
      rw [star_mul', star_star]
    have h1 : ∑ b, H 0 b.succ * y b = l0 * T := by
      rw [hTdef, Finset.mul_sum]
      refine Finset.sum_congr rfl fun b _ => ?_
      rw [e2 b]
      ring
    have hSdef : star y ⬝ᵥ cholSub H *ᵥ y =
        ∑ a, star (y a) * ∑ b, cholSub H a b * y b := by
      simp [dotProduct, mulVec]
    have h4 : ∀ a : Fin n, ∑ b, H a.succ b.succ * y b =
        (∑ b, cholSub H a b * y b) + cholCol H a * T := by
      intro a
      rw [hTdef, Finset.mul_sum, ← Finset.sum_add_distrib]
      refine Finset.sum_congr rfl fun b _ => ?_
      rw [e4 a b]
      ring
    have hsplit : ∀ a : Fin n,
        star (y a) * (H a.succ 0 * x 0 + ∑ b, H a.succ b.succ * y b) =
        (l0 * x 0) * (cholCol H a * star (y a)) +
        (star (y a) * ∑ b, cholSub H a b * y b +
          (cholCol H a * star (y a)) * T) := by
      intro a
      rw [e3 a, h4 a]
      ring
    have h2 : ∑ a, star (y a) * (H a.succ 0 * x 0 + ∑ b, H a.succ b.succ * y b) =
        (l0 * x 0) * star T + (star y ⬝ᵥ cholSub H *ᵥ y + star T * T) := by
      rw [Finset.sum_congr rfl fun a _ => hsplit a, Finset.sum_add_distrib,
        Finset.sum_add_distrib, ← Finset.mul_sum, ← Finset.sum_mul, ← hTs,
        hSdef]
    have hx0 : x 0 = -(T / l0) := by rw [hxdef]; simp
    have hsx0 : star (x 0) = -(star T / l0) := by
      rw [hx0, star_neg, star_div₀, hl0star]
    have hmain : star x ⬝ᵥ H *ᵥ x = star y ⬝ᵥ cholSub H *ᵥ y := by
      rw [hexp, h1, h2, e1, hsx0, hx0]
      field_simp
      ring
    have hfin := hpd.2 x hx
    rw [hmain] at hfin
    exact hfin

theorem cholesky_posdef_ok {n : ℕ} :
    ∀ H : Matrix (Fin n) (Fin n) ℂ, H.PosDef → ∃ L, cholesky H = .ok L := by
  induction n with
  | zero => intro H _; exact ⟨0, rfl⟩
  | succ n ih =>
    intro H hpd
    obtain ⟨L2, hL2⟩ := ih (cholSub H) (posdef_cholSub H hpd)
    refine ⟨cholAsm H L2, ?_⟩
    rw [cholesky_succ, if_pos (posdef_pivot_pos H hpd), hL2]
    rfl

/-- C2 (amended): for every Hermitian positive-definite 2N x 2N Hamiltonian,
the Bogoliubov solver's Cholesky factorisation succeeds and produces a
LOWER-triangular factor `C` with `H = C * Cᴴ` (numpy's convention — not an
upper-triangular factor with `H = Cᴴ * C` as the spec claims); the solver then
forms `H_trafo = Cᴴ * g * C` and returns the real parts of its eigenvalues. -/
theorem bogoliubov_solver_spec (N : ℕ) (H : Matrix (Fin (N + N)) (Fin (N + N)) ℂ)
    (hpd : H.PosDef) :
    ∃ C, cholesky H = .ok C ∧
      (∀ i j : Fin (N + N), (i : ℕ) < (j : ℕ) → C i j = 0) ∧
      C * Cᴴ = H ∧
      bogoliubov N H = .ok (((Cᴴ * gF N * C).charpoly.roots).map Complex.re) := by
  obtain ⟨C, hC⟩ := cholesky_posdef_ok H hpd
  obtain ⟨hlow, _, hmul⟩ := cholesky_spec H (hermitian_entry hpd.1) C hC
  exact ⟨C, hC, hlow, hmul, by simp only [bogoliubov, hC]⟩

/-- Witness for C2 at `N = 1` and the (Hermitian, positive-definite)
identity Hamiltonian. -/
theorem bogoliubov_solver_spec_witness :
    (1 : Matrix (Fin (1 + 1)) (Fin (1 + 1)) ℂ).PosDef ∧
    ∃ C, cholesky (1 : Matrix (Fin (1 + 1)) (Fin (1 + 1)) ℂ) = .ok C ∧
      (∀ i j : Fin (1 + 1), (i : ℕ) < (j : ℕ) → C i j = 0) ∧
      C * Cᴴ = 1 ∧
      bogoliubov 1 1 = .ok (((Cᴴ * gF 1 * C).charpoly.roots).map Complex.re) :=
  ⟨Matrix.PosDef.one, bogoliubov_solver_spec 1 1 Matrix.PosDef.one⟩

/-! ### Concrete Cholesky evaluations -/

lemma cholSub_smul_one {n : ℕ} (c : ℝ) (hc : 0 < c) :
    cholSub ((c : ℂ) • (1 : Matrix (Fin (n + 1)) (Fin (n + 1)) ℂ)) =
      (c : ℂ) • (1 : Matrix (Fin n) (Fin n) ℂ) := by
  have hpiv : cholPiv ((c : ℂ) • (1 : Matrix (Fin (n + 1)) (Fin (n + 1)) ℂ)) = c := by
    simp [cholPiv, Matrix.smul_apply, Matrix.one_apply]
  ext i j
  rw [cholSub, cholCol, cholCol, hpiv]
  have hz : ((c : ℂ) • (1 : Matrix (Fin (n + 1)) (Fin (n + 1)) ℂ)) i.succ 0 = 0 := by
    simp [Matrix.smul_apply, Matrix.one_apply, Fin.succ_ne_zero]
  have hz2 : ((c : ℂ) • (1 : Matrix (Fin (n + 1)) (Fin (n + 1)) ℂ)) j.succ 0 = 0 := by
    simp [Matrix.smul_apply, Matrix.one_apply, Fin.succ_ne_zero]
  rw [hz, hz2]
  simp only [zero_div, zero_mul, star_zero, mul_zero, sub_zero]
  simp [Matrix.smul_apply, Matrix.one_apply, Fin.succ_inj]

lemma cholesky_smul_one {n : ℕ} (c : ℝ) (hc : 0 < c) :
    cholesky ((c : ℂ) • (1 : Matrix (Fin n) (Fin n) ℂ)) =
      .ok (((Real.sqrt c : ℝ) : ℂ) • 1) := by
  induction n with
  | zero =>
    rw [cholesky_zero]
    congr 1
    ext i j
    exact i.elim0
  | succ n ih =>
    rw [cholesky_succ]
    have hpiv : cholPiv ((c : ℂ) • (1 : Matrix (Fin (n + 1)) (Fin (n + 1)) ℂ)) = c := by
      simp [cholPiv, Matrix.smul_apply, Matrix.one_apply]
    rw [hpiv, if_pos hc, cholSub_smul_one c hc, ih]
    simp only [Except.map, Except.ok.injEq]
    ext i j
    rcases Fin.eq_zero_or_eq_succ i with rfl | ⟨i2, rfl⟩ <;>
      rcases Fin.eq_zero_or_eq_succ j with rfl | ⟨j2, rfl⟩
    · simp only [cholAsm, Fin.cons_zero]
      rw [hpiv]
      simp [Matrix.smul_apply, Matrix.one_apply]
    · simp [cholAsm, Matrix.smul_apply, Matrix.one_apply,
        Ne.symm (Fin.succ_ne_zero j2)]
    · simp [cholAsm, cholCol, Matrix.smul_apply, Matrix.one_apply,
        Fin.succ_ne_zero]
    · simp [cholAsm, Matrix.smul_apply, Matrix.one_apply, Fin.succ_inj]

/-! ### Eigenvalues of diagonal matrices via the characteristic polynomial -/

lemma charmatrix_diagonal {n : Type} [DecidableEq n] [Fintype n] (d : n → ℂ) :
    charmatrix (Matrix.diagonal d) = Matrix.diagonal (fun i => X - C (d i)) := by
  ext i j
  rcases eq_or_ne i j with rfl | h
  · simp [charmatrix_apply_eq]
  · simp [charmatrix_apply_ne _ _ _ h, Matrix.diagonal_apply_ne _ h]

lemma charpoly_diagonal {n : Type} [DecidableEq n] [Fintype n] (d : n → ℂ) :
    (Matrix.diagonal d).charpoly = ∏ i, (X - C (d i)) := by
  rw [Matrix.charpoly, charmatrix_diagonal, Matrix.det_diagonal]

lemma roots_charpoly_diagonal {n : Type} [DecidableEq n] [Fintype n] (d : n → ℂ) :
    (Matrix.diagonal d).charpoly.roots = Finset.univ.val.map d := by
  rw [charpoly_diagonal]
  have h : ∏ i, (X - C (d i)) =
      ((Finset.univ.val.map d).map fun a => X - C a).prod := by
    rw [Multiset.map_map]
    rfl
  rw [h, Polynomial.roots_multiset_prod_X_sub_C]

lemma sqrt_four : Real.sqrt 4 = 2 := by
  rw [show (4 : ℝ) = 2 ^ 2 by norm_num, Real.sqrt_sq (by norm_num : (0 : ℝ) ≤ 2)]

lemma cholesky_one_dim :
    cholesky (!![1] : Matrix (Fin 1) (Fin 1) ℂ) = .ok !![1] := by
  rw [cholesky_succ]
  have hpiv1 : cholPiv (!![1] : Matrix (Fin 1) (Fin 1) ℂ) = 1 := by
    simp [cholPiv]
  rw [hpiv1, if_pos one_pos, cholesky_zero]
  simp only [Except.map, Except.ok.injEq]
  ext i j
  fin_cases i
  fin_cases j
  simp [cholAsm, hpiv1]

lemma cholesky_cex_eval :
    cholesky (!![4, 2; 2, 2] : Matrix (Fin 2) (Fin 2) ℂ) = .ok !![2, 0; 1, 1] := by
  rw [cholesky_succ]
  have hpiv : cholPiv (!![4, 2; 2, 2] : Matrix (Fin 2) (Fin 2) ℂ) = 4 := by
    simp [cholPiv]
  have hsub : cholSub (!![4, 2; 2, 2] : Matrix (Fin 2) (Fin 2) ℂ) = !![1] := by
    ext i j
    fin_cases i
    fin_cases j
    simp [cholSub, cholCol, hpiv, sqrt_four]
    norm_num
  rw [hpiv, if_pos (by norm_num : (0 : ℝ) < 4), hsub, cholesky_one_dim]
  simp only [Except.map, Except.ok.injEq]
  ext i j
  fin_cases i <;> fin_cases j <;>
    simp [cholAsm, cholCol, hpiv, sqrt_four] <;> norm_num

/-- C2 (counterexample): on the concrete Hermitian positive-definite input
`H = [[4,2],[2,2]]` the solver's Cholesky factor is `[[2,0],[1,1]]`, which is
lower-triangular (its entry `(1,0)` is `1`, not `0`) and satisfies
`H = C * Cᴴ` but NOT `H = Cᴴ * C` (the `(0,0)` entry of `Cᴴ * C` is `5`,
while `H[0][0] = 4`), refuting the claimed upper-triangular `H = Cᴴ C`
convention. -/
theorem cholesky_factor_not_upper :
    cholesky (!![4, 2; 2, 2] : Matrix (Fin 2) (Fin 2) ℂ) = .ok !![2, 0; 1, 1] ∧
    (!![(2 : ℂ), 0; 1, 1] : Matrix (Fin 2) (Fin 2) ℂ) 1 0 ≠ 0 ∧
    ((!![(2 : ℂ), 0; 1, 1] : Matrix (Fin 2) (Fin 2) ℂ)ᴴ *
        !![(2 : ℂ), 0; 1, 1]) 0 0 = 5 ∧
    (!![(4 : ℂ), 2; 2, 2] : Matrix (Fin 2) (Fin 2) ℂ) 0 0 = 4 := by
  refine ⟨cholesky_cex_eval, by norm_num, ?_, by norm_num⟩
  simp [Matrix.mul_apply, Fin.sum_univ_two, conjTranspose_apply]
  rw [show ((starRingEnd ℂ) 2 : ℂ) = 2 by norm_num [Complex.ext_iff]]
  norm_num

/-! ### The ferromagnetic chain model evaluated symbolically -/

lemma rotOf_zdir : rotOf ![0, 0, 1] = 1 := by
  have hn : norm3 ![(0 : ℝ), 0, 1] = 1 := by
    have hd : (![(0 : ℝ), 0, 1] ⬝ᵥ ![(0 : ℝ), 0, 1]) = 1 := by
      simp [dotProduct, Fin.sum_univ_three]
    rw [norm3, hd, Real.sqrt_one]
  have hSd : (fun i => ![(0 : ℝ), 0, 1] i / norm3 ![(0 : ℝ), 0, 1]) = zdir := by
    funext i
    fin_cases i <;> simp [hn, zdir]
  simp only [rotOf]
  rw [hSd, if_pos rfl, rodrigues_entries, one_fin_three]
  refine congrArg Matrix.of
    (vec3_eq (vec3_eq ?_ ?_ ?_) (vec3_eq ?_ ?_ ?_) (vec3_eq ?_ ?_ ?_)) <;>
    norm_num

lemma u_ferro : (ferroModel.sites (0 : Fin 1)).u = ![1, Complex.I, 0] := by
  funext a
  fin_cases a <;>
    simp [ferroModel, mkSite, frameU, rotOf_zdir, Matrix.one_apply]

lemma v_ferro : (ferroModel.sites (0 : Fin 1)).v = ![0, 0, 1] := by
  funext a
  fin_cases a <;>
    simp [ferroModel, mkSite, frameV, rotOf_zdir, Matrix.one_apply]

lemma S_ferro : (ferroModel.sites (0 : Fin 1)).S = 1 := rfl

lemma skew_zero : skew ![(0 : ℝ), 0, 0] = 0 := by
  ext i j
  fin_cases i <;> fin_cases j <;>
    simp [skew, Matrix.vecHead, Matrix.vecTail]

lemma Jfourier_ferro (Q : Fin 3 → ℝ) :
    Jfourier ferroModel.couplings Q (0 : Fin 1) (0 : Fin 1) =
      Matrix.diagonal (fun _ => ((-(2 * Real.cos (2 * π * Q 0)) : ℝ) : ℂ)) := by
  have hdot : (ferroCoupling.dist ⬝ᵥ Q) = Q 0 := by
    show (![(1 : ℝ), 0, 0] ⬝ᵥ Q) = Q 0
    simp [dotProduct, Fin.sum_univ_three]
  have hJr : Jreal ferroCoupling =
      Matrix.diagonal (fun _ => (-1 : ℝ)) := by
    rw [Jreal, show ferroCoupling.DMI = ![(0 : ℝ), 0, 0] from rfl, skew_zero,
      add_zero]
    rfl
  have hmapd : mapC (Matrix.diagonal fun _ => (-1 : ℝ)) =
      Matrix.diagonal (fun _ => (-1 : ℂ)) := by
    rw [mapC, Matrix.diagonal_map (by norm_num)]
    congr 1
    funext i
    push_cast
    rfl
  have hphase : phase ferroCoupling Q =
      Complex.exp (((-(2 * π * Q 0) : ℝ) : ℂ) * Complex.I) := by
    rw [phase, hdot]
    congr 1
    push_cast
    ring
  rw [show ferroModel.couplings = [ferroCoupling] from rfl, Jfourier]
  simp only [List.map_cons, List.map_nil, List.sum_cons, List.sum_nil, add_zero]
  rw [if_pos ⟨rfl, rfl⟩, if_pos ⟨rfl, rfl⟩, Jft, hJr, hmapd, hphase]
  rw [Matrix.conjTranspose_smul, Matrix.diagonal_conjTranspose]
  have hstard : (star (fun _ : Fin 3 => (-1 : ℂ))) = fun _ : Fin 3 => (-1 : ℂ) := by
    funext i
    simp
  rw [hstard, ← add_smul]
  have hsum : Complex.exp (((-(2 * π * Q 0) : ℝ) : ℂ) * Complex.I) +
      star (Complex.exp (((-(2 * π * Q 0) : ℝ) : ℂ) * Complex.I)) =
      ((2 * Real.cos (2 * π * Q 0) : ℝ) : ℂ) := by
    rw [Complex.star_def, Complex.add_conj, Complex.exp_ofReal_mul_I_re,
      Real.cos_neg]
  rw [hsum]
  ext i j
  rcases eq_or_ne i j with rfl | hij
  · simp only [Matrix.smul_apply, Matrix.diagonal_apply_eq, smul_eq_mul]
    push_cast
    ring
  · simp [Matrix.diagonal_apply_ne _ hij, hij]

lemma J0fourier_ferro :
    J0fourier ferroModel.couplings (0 : Fin 1) (0 : Fin 1) =
      Matrix.diagonal (fun _ => ((-2 : ℝ) : ℂ)) := by
  have hJr : Jreal ferroCoupling =
      Matrix.diagonal (fun _ => (-1 : ℝ)) := by
    rw [Jreal, show ferroCoupling.DMI = ![(0 : ℝ), 0, 0] from rfl, skew_zero,
      add_zero]
    rfl
  have hmapd : mapC (Matrix.diagonal fun _ => (-1 : ℝ)) =
      Matrix.diagonal (fun _ => (-1 : ℂ)) := by
    rw [mapC, Matrix.diagonal_map (by norm_num)]
    congr 1
    funext i
    push_cast
    rfl
  rw [show ferroModel.couplings = [ferroCoupling] from rfl, J0fourier]
  simp only [List.map_cons, List.map_nil, List.sum_cons, List.sum_nil, add_zero]
  rw [if_pos ⟨rfl, rfl⟩, if_pos ⟨rfl, rfl⟩, hJr, hmapd,
    Matrix.diagonal_conjTranspose]
  have hstard : (star (fun _ : Fin 3 => (-1 : ℂ))) = fun _ : Fin 3 => (-1 : ℂ) := by
    funext i
    simp
  rw [hstard]
  ext i j
  rcases eq_or_ne i j with rfl | hij
  · simp only [Matrix.add_apply, Matrix.diagonal_apply_eq]
    push_cast
    ring
  · simp [Matrix.diagonal_apply_ne _ hij]

lemma hamF_ferro (Q : Fin 3 → ℝ) :
    HamF ferroModel Q = ((E0 (Q 0) : ℝ) : ℂ) • 1 := by
  have hSpre : ((Spre ferroModel (0 : Fin 1) (0 : Fin 1) : ℝ) : ℂ) = 1 / 2 := by
    rw [Spre, S_ferro]
    norm_num
  have hdiag : diagCorr ferroModel (0 : Fin 1) = 2 := by
    rw [diagCorr]
    rw [show (∑ j : Fin ferroModel.N, ((ferroModel.sites j).S : ℂ) *
        (vC (ferroModel.sites (0 : Fin 1)) ⬝ᵥ
          (J0fourier ferroModel.couplings (0 : Fin 1) j) *ᵥ
          vC (ferroModel.sites j))) =
        ((ferroModel.sites (0 : Fin 1)).S : ℂ) *
        (vC (ferroModel.sites (0 : Fin 1)) ⬝ᵥ
          (J0fourier ferroModel.couplings (0 : Fin 1) (0 : Fin 1)) *ᵥ
          vC (ferroModel.sites (0 : Fin 1))) from Fin.sum_univ_one _]
    rw [S_ferro, J0fourier_ferro]
    rw [show vC (ferroModel.sites (0 : Fin 1)) = ![0, 0, (1 : ℂ)] from by
      funext a
      rw [vC, v_ferro]
      fin_cases a <;> norm_num]
    simp [dotProduct, Matrix.mulVec_diagonal, Fin.sum_univ_three]
  have hA : (ferroModel.sites (0 : Fin 1)).u ⬝ᵥ
      (Jfourier ferroModel.couplings Q (0 : Fin 1) (0 : Fin 1)) *ᵥ
      star (ferroModel.sites (0 : Fin 1)).u =
      ((-(4 * Real.cos (2 * π * Q 0)) : ℝ) : ℂ) := by
    rw [Jfourier_ferro, u_ferro]
    simp [dotProduct, Matrix.mulVec_diagonal, Fin.sum_univ_three, Complex.conj_I]
    push_cast
    linear_combination (2 * Complex.cos (2 * ((π : ℝ) : ℂ) * ((Q 0 : ℝ) : ℂ))) *
      Complex.I_sq
  have hAp : star (ferroModel.sites (0 : Fin 1)).u ⬝ᵥ
      (Jfourier ferroModel.couplings Q (0 : Fin 1) (0 : Fin 1)) *ᵥ
      (ferroModel.sites (0 : Fin 1)).u =
      ((-(4 * Real.cos (2 * π * Q 0)) : ℝ) : ℂ) := by
    rw [Jfourier_ferro, u_ferro]
    simp [dotProduct, Matrix.mulVec_diagonal, Fin.sum_univ_three, Complex.conj_I]
    push_cast
    linear_combination (2 * Complex.cos (2 * ((π : ℝ) : ℂ) * ((Q 0 : ℝ) : ℂ))) *
      Complex.I_sq
  have hB : (ferroModel.sites (0 : Fin 1)).u ⬝ᵥ
      (Jfourier ferroModel.couplings Q (0 : Fin 1) (0 : Fin 1)) *ᵥ
      (ferroModel.sites (0 : Fin 1)).u = 0 := by
    rw [Jfourier_ferro, u_ferro]
    simp [dotProduct, Matrix.mulVec_diagonal, Fin.sum_univ_three]
    push_cast
    linear_combination (-(2 * Complex.cos (2 * ((π : ℝ) : ℂ) * ((Q 0 : ℝ) : ℂ)))) *
      Complex.I_sq
  ext a b
  fin_cases a <;> fin_cases b
  · show blockA ferroModel Q (0 : Fin 1) (0 : Fin 1) =
      (((E0 (Q 0) : ℝ) : ℂ) • (1 : Matrix (Fin 2) (Fin 2) ℂ)) 0 0
    simp only [blockA]
    rw [hA, hdiag, hSpre, E0]
    simp only [eq_self_iff_true, if_true, Matrix.smul_apply, Matrix.one_apply,
      smul_eq_mul, mul_one]
    push_cast
    ring
  · show blockB ferroModel Q (0 : Fin 1) (0 : Fin 1) =
      (((E0 (Q 0) : ℝ) : ℂ) • (1 : Matrix (Fin 2) (Fin 2) ℂ)) 0 1
    simp only [blockB]
    rw [hB]
    simp [Matrix.smul_apply, Matrix.one_apply]
  · show blockBp ferroModel Q (0 : Fin 1) (0 : Fin 1) =
      (((E0 (Q 0) : ℝ) : ℂ) • (1 : Matrix (Fin 2) (Fin 2) ℂ)) 1 0
    simp only [blockBp]
    rw [hB]
    simp [Matrix.smul_apply, Matrix.one_apply]
  · show blockAp ferroModel Q (0 : Fin 1) (0 : Fin 1) =
      (((E0 (Q 0) : ℝ) : ℂ) • (1 : Matrix (Fin 2) (Fin 2) ℂ)) 1 1
    simp only [blockAp]
    rw [hAp, hdiag, hSpre, E0]
    simp only [eq_self_iff_true, if_true, Matrix.smul_apply, Matrix.one_apply,
      smul_eq_mul, mul_one]
    push_cast
    ring

/-! ### Running the Bogoliubov solver on the ferromagnetic model -/

lemma bogoliubov_ok {N : ℕ} {H C : Matrix (Fin (N + N)) (Fin (N + N)) ℂ}
    (h : cholesky H = .ok C) :
    bogoliubov N H = .ok (((Cᴴ * gF N * C).charpoly.roots).map Complex.re) := by
  rw [bogoliubov, h]

lemma bogoliubov_err {N : ℕ} {H : Matrix (Fin (N + N)) (Fin (N + N)) ℂ}
    {e : PyErr} (h : cholesky H = .error e) : bogoliubov N H = .error e := by
  rw [bogoliubov, h]

lemma gF_one : gF 1 = Matrix.diagonal ![(1 : ℂ), -1] := by
  ext a b
  fin_cases a <;> fin_cases b
  · show gS 1 (Sum.inl 0) (Sum.inl 0) = Matrix.diagonal ![(1 : ℂ), -1] 0 0
    simp [gS, fromBlocks]
  · show gS 1 (Sum.inl 0) (Sum.inr 0) = Matrix.diagonal ![(1 : ℂ), -1] 0 1
    simp [gS, fromBlocks]
  · show gS 1 (Sum.inr 0) (Sum.inl 0) = Matrix.diagonal ![(1 : ℂ), -1] 1 0
    simp [gS, fromBlocks]
  · show gS 1 (Sum.inr 0) (Sum.inr 0) = Matrix.diagonal ![(1 : ℂ), -1] 1 1
    simp [gS, fromBlocks]

lemma univ_val_map_two (d : Fin 2 → ℂ) : (Finset.univ.val.map d) = {d 0, d 1} :=
  rfl

/-- The congruence transform and eigenvalue extraction evaluated on the scaled
identity Cholesky factor `sqrt c * 1`: the resulting energies are `{c, -c}`. -/
lemma trafo_roots_smul_one (c : ℝ) (hc : 0 ≤ c) :
    ((((((Real.sqrt c : ℝ) : ℂ) • (1 : Matrix (Fin 2) (Fin 2) ℂ))ᴴ * gF 1 *
      (((Real.sqrt c : ℝ) : ℂ) • 1)).charpoly.roots).map Complex.re) =
      ({c, -c} : Multiset ℝ) := by
  have hCt : ((((Real.sqrt c : ℝ) : ℂ) • (1 : Matrix (Fin 2) (Fin 2) ℂ))ᴴ) =
      ((Real.sqrt c : ℝ) : ℂ) • 1 := by
    rw [Matrix.conjTranspose_smul, Matrix.conjTranspose_one, Complex.star_def,
      Complex.conj_ofReal]
  rw [hCt, Matrix.smul_mul, Matrix.one_mul, Matrix.mul_smul, Matrix.mul_one,
    smul_smul, ← Complex.ofReal_mul, Real.mul_self_sqrt hc, gF_one]
  have hsd : ((c : ℝ) : ℂ) • Matrix.diagonal ![(1 : ℂ), -1] =
      Matrix.diagonal ![((c : ℝ) : ℂ), -((c : ℝ) : ℂ)] := by
    rw [← Matrix.diagonal_smul]
    congr 1
    funext i
    fin_cases i <;> simp
  rw [hsd, roots_charpoly_diagonal, univ_val_map_two]
  simp

/-- On the ferromagnetic chain, at any `Q = (Q0, Q1, Q2)` with
`E0 Q0 > 0`, `get_energies` succeeds and returns the energy pair
`{E0 Q0, -E0 Q0}`. -/
lemma getEnergies_ferro (Q : Fin 3 → ℝ) (hQ : 0 < E0 (Q 0)) :
    getEnergies ferroModel Q = .ok {E0 (Q 0), -(E0 (Q 0))} := by
  have hch : cholesky (HamF ferroModel Q) =
      .ok (((Real.sqrt (E0 (Q 0)) : ℝ) : ℂ) • 1) := by
    rw [hamF_ferro]
    exact cholesky_smul_one _ hQ
  rw [getEnergies, bogoliubov_ok hch]
  congr 1
  show (((((Real.sqrt (E0 (Q 0)) : ℝ) : ℂ) •
      (1 : Matrix (Fin 2) (Fin 2) ℂ))ᴴ * gF 1 *
      (((Real.sqrt (E0 (Q 0)) : ℝ) : ℂ) • 1)).charpoly.roots).map Complex.re =
      ({E0 (Q 0), -(E0 (Q 0))} : Multiset ℝ)
  exact trafo_roots_smul_one _ hQ.le

lemma cholesky_smul_one_err {n : ℕ} (c : ℝ) (hc : ¬ 0 < c) :
    cholesky ((c : ℂ) • (1 : Matrix (Fin (n + 1)) (Fin (n + 1)) ℂ)) =
      .error .linAlg := by
  rw [cholesky_succ]
  have hpiv : cholPiv ((c : ℂ) • (1 : Matrix (Fin (n + 1)) (Fin (n + 1)) ℂ)) = c := by
    simp [cholPiv, Matrix.smul_apply, Matrix.one_apply]
  rw [hpiv, if_neg hc]

/-- On the ferromagnetic chain, whenever `E0 Q0` is not positive (e.g. at
integer `h` where the magnon energy vanishes), the Cholesky factorisation of
the singular Hamiltonian raises `LinAlgError`. -/
lemma getEnergies_ferro_err (Q : Fin 3 → ℝ) (hQ : ¬ 0 < E0 (Q 0)) :
    getEnergies ferroModel Q = .error .linAlg := by
  have hch : cholesky (HamF ferroModel Q) = .error .linAlg := by
    rw [hamF_ferro]
    exact cholesky_smul_one_err _ hQ
  rw [getEnergies, bogoliubov_err hch]

lemma E0_zero : E0 0 = 0 := by
  rw [E0]
  simp

lemma getEnergies_ferro_zero : getEnergies ferroModel ![0, 0, 0] = .error .linAlg := by
  refine getEnergies_ferro_err _ ?_
  rw [show (![(0 : ℝ), 0, 0]) 0 = 0 from rfl, E0_zero]
  exact lt_irrefl 0

lemma E0_half : E0 (1 / 2) = 4 := by
  rw [E0, show (2 : ℝ) * π * (1 / 2) = π by ring, Real.cos_pi]
  norm_num

lemma getEnergies_ferro_half :
    getEnergies ferroModel ![1 / 2, 0, 0] = .ok ({4, -4} : Multiset ℝ) := by
  have h0 : (![(1 : ℝ) / 2, 0, 0]) 0 = 1 / 2 := rfl
  have h := getEnergies_ferro ![1 / 2, 0, 0] (by rw [h0, E0_half]; norm_num)
  rw [h, h0, E0_half]

/-- C3: on the single-site ferromagnetic chain model (`S = 1`,
`Sdir = (0,0,1)`, one self-coupling with `J = -1`, `dist = (1,0,0)`), for
every `h` at which the solve succeeds, the positive-energy branch of
`get_energies` at `Q = (h,0,0)` is exactly `{disp h}`, where `disp` is the
closed-form dispersion of `create_random_data.py`; moreover
`disp h = 2|J| S (1 - cos(2 pi h))` with `J = -1`, `S = 1`, and at `h = 1/2`
the energy is exactly `4`. -/
theorem ferro_dispersion_closed_form :
    (∀ (h : ℝ) (Es : Multiset ℝ), getEnergies ferroModel ![h, 0, 0] = .ok Es →
      Es.filter (fun E => 0 ≤ E) = {disp h}) ∧
    (∀ h : ℝ, disp h = 2 * |(-1 : ℝ)| * 1 * (1 - Real.cos (2 * π * h))) ∧
    disp (1 / 2) = 4 := by
  have hdispE0 : ∀ h : ℝ, disp h = E0 h := by
    intro h
    rw [disp, E0, show h * 1 * 2 * π = 2 * π * h by ring]
    ring
  refine ⟨?_, ?_, ?_⟩
  · intro h Es hok
    have hh : (![h, 0, 0]) 0 = h := rfl
    by_cases hpos : 0 < E0 h
    · have := getEnergies_ferro ![h, 0, 0] (by rw [hh]; exact hpos)
      rw [hok, hh] at this
      have hEs : Es = ({E0 h, -(E0 h)} : Multiset ℝ) :=
        (Except.ok.injEq _ _).mp this
      rw [hEs, hdispE0 h]
      have h1 : (0 : ℝ) ≤ E0 h := le_of_lt hpos
      have h2 : ¬ (0 : ℝ) ≤ -(E0 h) := by
        intro hcon
        have := neg_nonneg.mp hcon
        exact absurd hpos (not_lt.mpr this)
      simp [Multiset.filter_cons, Multiset.filter_singleton, h1, h2]
    · have := getEnergies_ferro_err ![h, 0, 0] (by rw [hh]; exact hpos)
      rw [hok] at this
      exact absurd this (by simp)
  · intro h
    rw [hdispE0 h, E0]
    rw [abs_of_nonpos (by norm_num : (-1 : ℝ) ≤ 0)]
    ring
  · rw [hdispE0 _, E0_half]

/-- Witness for C3 at `h = 1/2`: `get_energies` returns `{4, -4}` there, its
positive branch is `{disp(1/2)}`, and `disp(1/2) = 4`. -/
theorem ferro_dispersion_closed_form_witness :
    Multiset.filter (fun E => 0 ≤ E) ({4, -4} : Multiset ℝ) = {disp (1 / 2)} ∧
    disp (1 / 2) = 4 :=
  ⟨ferro_dispersion_closed_form.1 (1 / 2) {4, -4} getEnergies_ferro_half,
   ferro_dispersion_closed_form.2.2⟩

/-! ### The dispersion scan loop and its exception handler -/

lemma scanPoint_fail {h : ℝ}
    (hfail : getEnergies ferroModel ![h, 0, 0] = .error .linAlg) :
    scanPoint h = 0 := by
  rw [scanPoint, hfail]

lemma scanPoint_half : scanPoint (1 / 2) = {((1 / 2 : ℝ), (4 : ℝ))} := by
  rw [scanPoint, getEnergies_ferro_half]
  show (Multiset.filter (fun E => 0 ≤ E) ({4, -4} : Multiset ℝ)).map
      (fun E => ((1 / 2 : ℝ), E)) = {((1 / 2 : ℝ), (4 : ℝ))}
  have hf : Multiset.filter (fun E => 0 ≤ E) ({4, -4} : Multiset ℝ) = {4} := by
    have h1 : (0 : ℝ) ≤ 4 := by norm_num
    have h2 : ¬ (0 : ℝ) ≤ -4 := by norm_num
    simp [Multiset.filter_cons, Multiset.filter_singleton, h1, h2]
  rw [hf, Multiset.map_singleton]

/-- C4 (amended): when the Cholesky factorisation fails at a scan point `h`,
the scan does continue with all remaining points, but the failing `h` leaves
NO record whatsoever in the scan output (the `except LinAlgError: pass`
handler drops the point silently): the output over a scan list containing `h`
equals the output over the same list with `h` removed. -/
theorem scan_failure_silently_dropped (h : ℝ) (pre post : List ℝ)
    (hfail : getEnergies ferroModel ![h, 0, 0] = .error .linAlg) :
    scanOut (pre ++ h :: post) = scanOut (pre ++ post) := by
  rw [scanOut, scanOut, List.map_append, List.map_append, List.map_cons,
    List.sum_append, List.sum_append, List.sum_cons, scanPoint_fail hfail,
    zero_add]

/-- C4 (counterexample to the recording claim): scanning the two points
`h = 0` (where the solve fails with `LinAlgError`) and `h = 1/2` produces the
single pair `(1/2, 4)` — the failing point `h = 0` is absent from the output,
with no empty or flagged per-point record. -/
theorem scan_drop_counterexample :
    getEnergies ferroModel ![0, 0, 0] = .error .linAlg ∧
    scanOut [0, 1 / 2] = {((1 / 2 : ℝ), (4 : ℝ))} := by
  refine ⟨getEnergies_ferro_zero, ?_⟩
  rw [scanOut]
  rw [show ([(0 : ℝ), 1 / 2].map scanPoint) = [scanPoint 0, scanPoint (1 / 2)]
    from rfl]
  rw [List.sum_cons, List.sum_cons, List.sum_nil, add_zero,
    scanPoint_fail getEnergies_ferro_zero, scanPoint_half, zero_add]

/-- Witness for C4 at the failing point `h = 0` inside the scan `[0, 1/2]`. -/
theorem scan_failure_silently_dropped_witness :
    scanOut ([] ++ (0 : ℝ) :: [1 / 2]) = scanOut ([] ++ [1 / 2]) :=
  scan_failure_silently_dropped 0 [] [1 / 2] getEnergies_ferro_zero

/-! ### The Bose factor and `TakinSqw` of `fm.py` at zero energy transfer -/

lemma bose_zero (T : ℝ) : bose 0 T = .error .zeroDiv := by
  have hcond : Real.exp (|(0 : ℝ)| / (kB * T)) - 1 = 0 := by simp
  rw [bose, if_pos hcond]

lemma boseCutoff_zero (T Ecut : ℝ) : boseCutoff 0 T Ecut = .error .zeroDiv := by
  rw [boseCutoff]
  rcases lt_or_le |(0 : ℝ)| |Ecut| with hlt | hge
  · rw [if_pos hlt, Real.sign_zero, zero_mul, bose_zero]
  · rw [if_neg (not_lt.mpr hge), bose_zero]

/-- C10 (amended): for every `T > 0` and every cutoff, `bose_cutoff` at
`E = 0` raises `ZeroDivisionError` (`np.sign(0) = 0` substitutes `E = 0` into
`bose`, whose denominator `exp(0) - 1` is zero); consequently, whenever
`get_energies` succeeds at `(h,k,l)`, `TakinSqw(h,k,l,0)` returns `0.0`
through its `ZeroDivisionError` handler, silently dropping the incoherent
elastic contribution.  (When `get_energies` itself raises `LinAlgError` —
e.g. at integer `h` — that error propagates out of `TakinSqw` instead; see
the counterexample.) -/
theorem bose_cutoff_zero_energy (T Ecut h k l : ℝ) (Es : Multiset ℝ)
    (hT : 0 < T) (hok : getEnergies ferroModel ![h, k, l] = .ok Es) :
    boseCutoff 0 T Ecut = .error .zeroDiv ∧ TakinSqw h k l 0 = .ok 0 := by
  refine ⟨boseCutoff_zero T Ecut, ?_⟩
  have hd : TakinDisp h k l = .ok Es := by rw [TakinDisp, hok]
  simp only [TakinSqw]
  rw [hd, boseCutoff_zero]
  rfl

/-- C10 (counterexample to "returns 0.0 for every (h,k,l)"): at
`(h,k,l) = (0,0,0)` the dispersion solve raises `LinAlgError`, which is NOT
caught by the `ZeroDivisionError` handler of `TakinSqw`, so the call
propagates the error instead of returning `0.0`. -/
theorem takin_sqw_zero_propagates_linalg :
    TakinSqw 0 0 0 0 = .error .linAlg := by
  have hd : TakinDisp 0 0 0 = .error .linAlg := by
    rw [TakinDisp, getEnergies_ferro_zero]
  simp only [TakinSqw]
  rw [hd]
  rfl

/-- Witness for C10 at `T = 300`, `Ecut = 1/100` (the script globals) and the
successfully solving point `(h,k,l) = (1/2, 0, 0)`. -/
theorem bose_cutoff_zero_energy_witness :
    boseCutoff 0 300 (1 / 100) = .error .zeroDiv ∧
    TakinSqw (1 / 2) 0 0 0 = .ok 0 :=
  bose_cutoff_zero_energy 300 (1 / 100) (1 / 2) 0 0 {4, -4}
    (by norm_num) getEnergies_ferro_half

/-! ### The antiferromagnetic chain model evaluated at the Gamma point -/

lemma rotOf_neg_zdir :
    rotOf ![0, 0, -1] = !![(-1 : ℝ), 0, 0; 0, 1, 0; 0, 0, -1] := by
  have hn : norm3 ![(0 : ℝ), 0, -1] = 1 := by
    have hd : (![(0 : ℝ), 0, -1] ⬝ᵥ ![(0 : ℝ), 0, -1]) = 1 := by
      simp [dotProduct, Fin.sum_univ_three]
    rw [norm3, hd, Real.sqrt_one]
  have hSd : (fun i => ![(0 : ℝ), 0, -1] i / norm3 ![(0 : ℝ), 0, -1]) = -zdir := by
    funext i
    fin_cases i <;> simp [hn, zdir]
  have hne : -zdir ≠ zdir := by
    intro hcon
    have h2 := congrFun hcon 2
    norm_num [zdir] at h2
  simp only [rotOf]
  rw [hSd, if_neg hne, if_pos rfl, rodrigues_entries]
  refine congrArg Matrix.of
    (vec3_eq (vec3_eq ?_ ?_ ?_) (vec3_eq ?_ ?_ ?_) (vec3_eq ?_ ?_ ?_)) <;>
    norm_num

lemma u_afm0 : (afmModel.sites (0 : Fin 2)).u = ![1, Complex.I, 0] := by
  funext a
  fin_cases a <;>
    simp [afmModel, mkSite, frameU, rotOf_zdir, Matrix.one_apply]

lemma v_afm0 : (afmModel.sites (0 : Fin 2)).v = ![0, 0, 1] := by
  funext a
  fin_cases a <;>
    simp [afmModel, mkSite, frameV, rotOf_zdir, Matrix.one_apply]

lemma S_afm0 : (afmModel.sites (0 : Fin 2)).S = 1 := rfl

lemma u_afm1 : (afmModel.sites (1 : Fin 2)).u = ![-1, Complex.I, 0] := by
  funext a
  fin_cases a <;>
    simp [afmModel, mkSite, frameU, rotOf_neg_zdir, Matrix.vecHead,
      Matrix.vecTail]

lemma v_afm1 : (afmModel.sites (1 : Fin 2)).v = ![0, 0, -1] := by
  funext a
  fin_cases a <;>
    simp [afmModel, mkSite, frameV, rotOf_neg_zdir, Matrix.vecHead,
      Matrix.vecTail]

lemma S_afm1 : (afmModel.sites (1 : Fin 2)).S = 1 := rfl

lemma phase_zeroQ {N : ℕ} (c : Coupling N) : phase c ![0, 0, 0] = 1 := by
  have h : (c.dist ⬝ᵥ ![(0 : ℝ), 0, 0]) = 0 := by
    simp [dotProduct, Fin.sum_univ_three]
  rw [phase, h]
  simp

lemma mapC_one : mapC 1 = 1 := by
  ext i j
  rcases eq_or_ne i j with rfl | hij
  · simp [mapC, Matrix.one_apply]
  · simp [mapC, Matrix.one_apply, hij]

lemma Jreal_afm1 : Jreal afmCoupling1 = 1 := by
  rw [Jreal, show afmCoupling1.DMI = ![(0 : ℝ), 0, 0] from rfl, skew_zero,
    add_zero, show afmCoupling1.J = (1 : ℝ) from rfl]
  exact Matrix.diagonal_one

lemma Jreal_afm2 : Jreal afmCoupling2 = 1 := by
  rw [Jreal, show afmCoupling2.DMI = ![(0 : ℝ), 0, 0] from rfl, skew_zero,
    add_zero, show afmCoupling2.J = (1 : ℝ) from rfl]
  exact Matrix.diagonal_one

lemma Jft_afm1 : Jft afmCoupling1 ![0, 0, 0] = 1 := by
  rw [Jft, phase_zeroQ, one_smul, Jreal_afm1, mapC_one]

lemma Jft_afm2 : Jft afmCoupling2 ![0, 0, 0] = 1 := by
  rw [Jft, phase_zeroQ, one_smul, Jreal_afm2, mapC_one]

lemma Jfourier_afm_00 :
    Jfourier afmModel.couplings ![0, 0, 0] (0 : Fin 2) (0 : Fin 2) = 0 := by
  rw [show afmModel.couplings = [afmCoupling1, afmCoupling2] from rfl, Jfourier]
  simp only [List.map_cons, List.map_nil, List.sum_cons, List.sum_nil, add_zero]
  rw [if_neg (by decide), if_neg (by decide), if_neg (by decide),
    if_neg (by decide)]
  simp

lemma Jfourier_afm_11 :
    Jfourier afmModel.couplings ![0, 0, 0] (1 : Fin 2) (1 : Fin 2) = 0 := by
  rw [show afmModel.couplings = [afmCoupling1, afmCoupling2] from rfl, Jfourier]
  simp only [List.map_cons, List.map_nil, List.sum_cons, List.sum_nil, add_zero]
  rw [if_neg (by decide), if_neg (by decide), if_neg (by decide),
    if_neg (by decide)]
  simp

lemma Jfourier_afm_01 :
    Jfourier afmModel.couplings ![0, 0, 0] (0 : Fin 2) (1 : Fin 2) =
      (2 : ℂ) • 1 := by
  rw [show afmModel.couplings = [afmCoupling1, afmCoupling2] from rfl, Jfourier]
  simp only [List.map_cons, List.map_nil, List.sum_cons, List.sum_nil, add_zero]
  rw [if_pos ⟨rfl, rfl⟩, if_neg (by decide), if_neg (by decide),
    if_pos ⟨rfl, rfl⟩, Jft_afm1, Jft_afm2, Matrix.conjTranspose_one, two_smul]
  simp

lemma Jfourier_afm_10 :
    Jfourier afmModel.couplings ![0, 0, 0] (1 : Fin 2) (0 : Fin 2) =
      (2 : ℂ) • 1 := by
  rw [show afmModel.couplings = [afmCoupling1, afmCoupling2] from rfl, Jfourier]
  simp only [List.map_cons, List.map_nil, List.sum_cons, List.sum_nil, add_zero]
  rw [if_neg (by decide), if_pos ⟨rfl, rfl⟩, if_pos ⟨rfl, rfl⟩,
    if_neg (by decide), Jft_afm1, Jft_afm2, Matrix.conjTranspose_one, two_smul]
  simp

lemma J0fourier_afm_00 :
    J0fourier afmModel.couplings (0 : Fin 2) (0 : Fin 2) = 0 := by
  rw [show afmModel.couplings = [afmCoupling1, afmCoupling2] from rfl, J0fourier]
  simp only [List.map_cons, List.map_nil, List.sum_cons, List.sum_nil, add_zero]
  rw [if_neg (by decide), if_neg (by decide), if_neg (by decide),
    if_neg (by decide)]
  simp

lemma J0fourier_afm_11 :
    J0fourier afmModel.couplings (1 : Fin 2) (1 : Fin 2) = 0 := by
  rw [show afmModel.couplings = [afmCoupling1, afmCoupling2] from rfl, J0fourier]
  simp only [List.map_cons, List.map_nil, List.sum_cons, List.sum_nil, add_zero]
  rw [if_neg (by decide), if_neg (by decide), if_neg (by decide),
    if_neg (by decide)]
  simp

lemma J0fourier_afm_01 :
    J0fourier afmModel.couplings (0 : Fin 2) (1 : Fin 2) = (2 : ℂ) • 1 := by
  rw [show afmModel.couplings = [afmCoupling1, afmCoupling2] from rfl, J0fourier]
  simp only [List.map_cons, List.map_nil, List.sum_cons, List.sum_nil, add_zero]
  rw [if_pos ⟨rfl, rfl⟩, if_neg (by decide), if_neg (by decide),
    if_pos ⟨rfl, rfl⟩, Jreal_afm1, Jreal_afm2, mapC_one,
    Matrix.conjTranspose_one, two_smul]
  simp

lemma J0fourier_afm_10 :
    J0fourier afmModel.couplings (1 : Fin 2) (0 : Fin 2) = (2 : ℂ) • 1 := by
  rw [show afmModel.couplings = [afmCoupling1, afmCoupling2] from rfl, J0fourier]
  simp only [List.map_cons, List.map_nil, List.sum_cons, List.sum_nil, add_zero]
  rw [if_neg (by decide), if_pos ⟨rfl, rfl⟩, if_pos ⟨rfl, rfl⟩,
    if_neg (by decide), Jreal_afm1, Jreal_afm2, mapC_one,
    Matrix.conjTranspose_one, two_smul]
  simp

lemma Spre_afm (i j : Fin 2) : Spre afmModel i j = 1 / 2 := by
  have hSv : ∀ k : Fin 2, (afmModel.sites k).S = 1 := by
    intro k
    fin_cases k
    · exact S_afm0
    · exact S_afm1
  rw [Spre, hSv, hSv]
  norm_num

lemma dot_u0_star_u1 :
    (![(1 : ℂ), Complex.I, 0] ⬝ᵥ star ![(-1 : ℂ), Complex.I, 0]) = 0 := by
  simp [dotProduct, Fin.sum_univ_three, Complex.star_def, Complex.conj_I,
    Matrix.vecHead, Matrix.vecTail, mul_neg, Complex.I_mul_I]

lemma dot_u1_star_u0 :
    (![(-1 : ℂ), Complex.I, 0] ⬝ᵥ star ![(1 : ℂ), Complex.I, 0]) = 0 := by
  simp [dotProduct, Fin.sum_univ_three, Complex.star_def, Complex.conj_I,
    Matrix.vecHead, Matrix.vecTail, mul_neg, Complex.I_mul_I]

lemma dot_star_u0_u1 :
    (star ![(1 : ℂ), Complex.I, 0] ⬝ᵥ ![(-1 : ℂ), Complex.I, 0]) = 0 := by
  simp [dotProduct, Fin.sum_univ_three, Complex.star_def, Complex.conj_I,
    Matrix.vecHead, Matrix.vecTail, neg_mul, Complex.I_mul_I]

lemma dot_star_u1_u0 :
    (star ![(-1 : ℂ), Complex.I, 0] ⬝ᵥ ![(1 : ℂ), Complex.I, 0]) = 0 := by
  simp [dotProduct, Fin.sum_univ_three, Complex.star_def, Complex.conj_I,
    Matrix.vecHead, Matrix.vecTail, neg_mul, Complex.I_mul_I]

lemma dot_u0_u1 :
    (![(1 : ℂ), Complex.I, 0] ⬝ᵥ ![(-1 : ℂ), Complex.I, 0]) = -2 := by
  simp [dotProduct, Fin.sum_univ_three, Matrix.vecHead, Matrix.vecTail,
    Complex.I_mul_I]
  norm_num

lemma dot_u1_u0 :
    (![(-1 : ℂ), Complex.I, 0] ⬝ᵥ ![(1 : ℂ), Complex.I, 0]) = -2 := by
  simp [dotProduct, Fin.sum_univ_three, Matrix.vecHead, Matrix.vecTail,
    Complex.I_mul_I]
  norm_num

lemma diagCorr_afm0 : diagCorr afmModel (0 : Fin 2) = 2 := by
  rw [diagCorr]
  show -∑ j : Fin 2, ((afmModel.sites j).S : ℂ) *
      (vC (afmModel.sites (0 : Fin 2)) ⬝ᵥ
        J0fourier afmModel.couplings (0 : Fin 2) j *ᵥ vC (afmModel.sites j)) = 2
  rw [Fin.sum_univ_two, J0fourier_afm_00, J0fourier_afm_01, S_afm0, S_afm1]
  simp [vC, v_afm0, v_afm1, Matrix.smul_mulVec_assoc, Matrix.one_mulVec,
    dotProduct, Fin.sum_univ_three, Matrix.vecHead, Matrix.vecTail]

lemma diagCorr_afm1 : diagCorr afmModel (1 : Fin 2) = 2 := by
  rw [diagCorr]
  show -∑ j : Fin 2, ((afmModel.sites j).S : ℂ) *
      (vC (afmModel.sites (1 : Fin 2)) ⬝ᵥ
        J0fourier afmModel.couplings (1 : Fin 2) j *ᵥ vC (afmModel.sites j)) = 2
  rw [Fin.sum_univ_two, J0fourier_afm_10, J0fourier_afm_11, S_afm0, S_afm1]
  simp [vC, v_afm0, v_afm1, Matrix.smul_mulVec_assoc, Matrix.one_mulVec,
    dotProduct, Fin.sum_univ_three, Matrix.vecHead, Matrix.vecTail]

lemma blockA_afm :
    blockA afmModel ![0, 0, 0] = !![(2 : ℂ), 0; 0, 2] := by
  ext i j
  fin_cases i <;> fin_cases j
  · show blockA afmModel ![0, 0, 0] (0 : Fin 2) (0 : Fin 2) =
      (!![(2 : ℂ), 0; 0, 2]) 0 0
    simp only [blockA]
    rw [Jfourier_afm_00, if_pos trivial, diagCorr_afm0]
    simp
  · show blockA afmModel ![0, 0, 0] (0 : Fin 2) (1 : Fin 2) =
      (!![(2 : ℂ), 0; 0, 2]) 0 1
    simp only [blockA]
    rw [Jfourier_afm_01, if_neg (by decide), u_afm0, u_afm1,
      Matrix.smul_mulVec_assoc, Matrix.one_mulVec, dotProduct_smul,
      dot_u0_star_u1]
    simp
  · show blockA afmModel ![0, 0, 0] (1 : Fin 2) (0 : Fin 2) =
      (!![(2 : ℂ), 0; 0, 2]) 1 0
    simp only [blockA]
    rw [Jfourier_afm_10, if_neg (by decide), u_afm0, u_afm1,
      Matrix.smul_mulVec_assoc, Matrix.one_mulVec, dotProduct_smul,
      dot_u1_star_u0]
    simp
  · show blockA afmModel ![0, 0, 0] (1 : Fin 2) (1 : Fin 2) =
      (!![(2 : ℂ), 0; 0, 2]) 1 1
    simp only [blockA]
    rw [Jfourier_afm_11, if_pos trivial, diagCorr_afm1]
    simp

lemma blockAp_afm :
    blockAp afmModel ![0, 0, 0] = !![(2 : ℂ), 0; 0, 2] := by
  ext i j
  fin_cases i <;> fin_cases j
  · show blockAp afmModel ![0, 0, 0] (0 : Fin 2) (0 : Fin 2) =
      (!![(2 : ℂ), 0; 0, 2]) 0 0
    simp only [blockAp]
    rw [Jfourier_afm_00, if_pos trivial, diagCorr_afm0]
    simp
  · show blockAp afmModel ![0, 0, 0] (0 : Fin 2) (1 : Fin 2) =
      (!![(2 : ℂ), 0; 0, 2]) 0 1
    simp only [blockAp]
    rw [Jfourier_afm_01, if_neg (by decide), u_afm0, u_afm1,
      Matrix.smul_mulVec_assoc, Matrix.one_mulVec, dotProduct_smul,
      dot_star_u0_u1]
    simp
  · show blockAp afmModel ![0, 0, 0] (1 : Fin 2) (0 : Fin 2) =
      (!![(2 : ℂ), 0; 0, 2]) 1 0
    simp only [blockAp]
    rw [Jfourier_afm_10, if_neg (by decide), u_afm0, u_afm1,
      Matrix.smul_mulVec_assoc, Matrix.one_mulVec, dotProduct_smul,
      dot_star_u1_u0]
    simp
  · show blockAp afmModel ![0, 0, 0] (1 : Fin 2) (1 : Fin 2) =
      (!![(2 : ℂ), 0; 0, 2]) 1 1
    simp only [blockAp]
    rw [Jfourier_afm_11, if_pos trivial, diagCorr_afm1]
    simp

lemma blockB_afm :
    blockB afmModel ![0, 0, 0] = !![(0 : ℂ), -2; -2, 0] := by
  ext i j
  fin_cases i <;> fin_cases j
  · show blockB afmModel ![0, 0, 0] (0 : Fin 2) (0 : Fin 2) =
      (!![(0 : ℂ), -2; -2, 0]) 0 0
    simp only [blockB]
    rw [Jfourier_afm_00]
    simp
  · show blockB afmModel ![0, 0, 0] (0 : Fin 2) (1 : Fin 2) =
      (!![(0 : ℂ), -2; -2, 0]) 0 1
    simp only [blockB]
    rw [Jfourier_afm_01, u_afm0, u_afm1, Matrix.smul_mulVec_assoc,
      Matrix.one_mulVec, dotProduct_smul, dot_u0_u1, Spre_afm]
    norm_num
  · show blockB afmModel ![0, 0, 0] (1 : Fin 2) (0 : Fin 2) =
      (!![(0 : ℂ), -2; -2, 0]) 1 0
    simp only [blockB]
    rw [Jfourier_afm_10, u_afm0, u_afm1, Matrix.smul_mulVec_assoc,
      Matrix.one_mulVec, dotProduct_smul, dot_u1_u0, Spre_afm]
    norm_num
  · show blockB afmModel ![0, 0, 0] (1 : Fin 2) (1 : Fin 2) =
      (!![(0 : ℂ), -2; -2, 0]) 1 1
    simp only [blockB]
    rw [Jfourier_afm_11]
    simp

lemma blockBp_afm :
    blockBp afmModel ![0, 0, 0] = !![(0 : ℂ), -2; -2, 0] := by
  ext i j
  fin_cases i <;> fin_cases j
  · show blockBp afmModel ![0, 0, 0] (0 : Fin 2) (0 : Fin 2) =
      (!![(0 : ℂ), -2; -2, 0]) 0 0
    simp only [blockBp]
    rw [Jfourier_afm_00]
    simp
  · show blockBp afmModel ![0, 0, 0] (0 : Fin 2) (1 : Fin 2) =
      (!![(0 : ℂ), -2; -2, 0]) 0 1
    simp only [blockBp]
    rw [Jfourier_afm_10, u_afm0, u_afm1, Matrix.smul_mulVec_assoc,
      Matrix.one_mulVec, dotProduct_smul, dot_u1_u0, Spre_afm]
    rw [show ((((1 : ℝ) / 2 : ℝ) : ℂ) * ((2 : ℂ) • (-2 : ℂ))) = -2 by
      norm_num]
    simp [Complex.star_def, Complex.ext_iff]
  · show blockBp afmModel ![0, 0, 0] (1 : Fin 2) (0 : Fin 2) =
      (!![(0 : ℂ), -2; -2, 0]) 1 0
    simp only [blockBp]
    rw [Jfourier_afm_01, u_afm0, u_afm1, Matrix.smul_mulVec_assoc,
      Matrix.one_mulVec, dotProduct_smul, dot_u0_u1, Spre_afm]
    rw [show ((((1 : ℝ) / 2 : ℝ) : ℂ) * ((2 : ℂ) • (-2 : ℂ))) = -2 by
      norm_num]
    simp [Complex.star_def, Complex.ext_iff]
  · show blockBp afmModel ![0, 0, 0] (1 : Fin 2) (1 : Fin 2) =
      (!![(0 : ℂ), -2; -2, 0]) 1 1
    simp only [blockBp]
    rw [Jfourier_afm_11]
    simp

lemma sqrt_two_sq : ((Real.sqrt 2 : ℝ) : ℂ) * ((Real.sqrt 2 : ℝ) : ℂ) = 2 := by
  rw [← Complex.ofReal_mul, Real.mul_self_sqrt (by norm_num : (0 : ℝ) ≤ 2)]
  norm_num

lemma col_sq_two :
    ((-2 : ℂ) / ((Real.sqrt 2 : ℝ) : ℂ)) *
      star ((-2 : ℂ) / ((Real.sqrt 2 : ℝ) : ℂ)) = 2 := by
  have hstar : star ((-2 : ℂ) / ((Real.sqrt 2 : ℝ) : ℂ)) =
      (-2 : ℂ) / ((Real.sqrt 2 : ℝ) : ℂ) := by
    simp [Complex.star_def, map_div₀, Complex.conj_ofReal]
  rw [hstar, div_mul_div_comm, sqrt_two_sq]
  norm_num

lemma hamF_afm :
    HamF afmModel ![0, 0, 0] =
      !![(2 : ℂ), 0, 0, -2; 0, 2, -2, 0; 0, -2, 2, 0; -2, 0, 0, 2] := by
  ext a b
  fin_cases a <;> fin_cases b
  · show blockA afmModel ![0, 0, 0] (0 : Fin 2) (0 : Fin 2) =
      (!![(2 : ℂ), 0, 0, -2; 0, 2, -2, 0; 0, -2, 2, 0; -2, 0, 0, 2]) 0 0
    rw [blockA_afm]
    norm_num
  · show blockA afmModel ![0, 0, 0] (0 : Fin 2) (1 : Fin 2) =
      (!![(2 : ℂ), 0, 0, -2; 0, 2, -2, 0; 0, -2, 2, 0; -2, 0, 0, 2]) 0 1
    rw [blockA_afm]
    norm_num
  · show blockB afmModel ![0, 0, 0] (0 : Fin 2) (0 : Fin 2) =
      (!![(2 : ℂ), 0, 0, -2; 0, 2, -2, 0; 0, -2, 2, 0; -2, 0, 0, 2]) 0 2
    rw [blockB_afm]
    norm_num
  · show blockB afmModel ![0, 0, 0] (0 : Fin 2) (1 : Fin 2) =
      (!![(2 : ℂ), 0, 0, -2; 0, 2, -2, 0; 0, -2, 2, 0; -2, 0, 0, 2]) 0 3
    rw [blockB_afm]
    norm_num
  · show blockA afmModel ![0, 0, 0] (1 : Fin 2) (0 : Fin 2) =
      (!![(2 : ℂ), 0, 0, -2; 0, 2, -2, 0; 0, -2, 2, 0; -2, 0, 0, 2]) 1 0
    rw [blockA_afm]
    norm_num
  · show blockA afmModel ![0, 0, 0] (1 : Fin 2) (1 : Fin 2) =
      (!![(2 : ℂ), 0, 0, -2; 0, 2, -2, 0; 0, -2, 2, 0; -2, 0, 0, 2]) 1 1
    rw [blockA_afm]
    norm_num
  · show blockB afmModel ![0, 0, 0] (1 : Fin 2) (0 : Fin 2) =
      (!![(2 : ℂ), 0, 0, -2; 0, 2, -2, 0; 0, -2, 2, 0; -2, 0, 0, 2]) 1 2
    rw [blockB_afm]
    norm_num
  · show blockB afmModel ![0, 0, 0] (1 : Fin 2) (1 : Fin 2) =
      (!![(2 : ℂ), 0, 0, -2; 0, 2, -2, 0; 0, -2, 2, 0; -2, 0, 0, 2]) 1 3
    rw [blockB_afm]
    norm_num
  · show blockBp afmModel ![0, 0, 0] (0 : Fin 2) (0 : Fin 2) =
      (!![(2 : ℂ), 0, 0, -2; 0, 2, -2, 0; 0, -2, 2, 0; -2, 0, 0, 2]) 2 0
    rw [blockBp_afm]
    norm_num
  · show blockBp afmModel ![0, 0, 0] (0 : Fin 2) (1 : Fin 2) =
      (!![(2 : ℂ), 0, 0, -2; 0, 2, -2, 0; 0, -2, 2, 0; -2, 0, 0, 2]) 2 1
    rw [blockBp_afm]
    norm_num
  · show blockAp afmModel ![0, 0, 0] (0 : Fin 2) (0 : Fin 2) =
      (!![(2 : ℂ), 0, 0, -2; 0, 2, -2, 0; 0, -2, 2, 0; -2, 0, 0, 2]) 2 2
    rw [blockAp_afm]
    norm_num
  · show blockAp afmModel ![0, 0, 0] (0 : Fin 2) (1 : Fin 2) =
      (!![(2 : ℂ), 0, 0, -2; 0, 2, -2, 0; 0, -2, 2, 0; -2, 0, 0, 2]) 2 3
    rw [blockAp_afm]
    norm_num
  · show blockBp afmModel ![0, 0, 0] (1 : Fin 2) (0 : Fin 2) =
      (!![(2 : ℂ), 0, 0, -2; 0, 2, -2, 0; 0, -2, 2, 0; -2, 0, 0, 2]) 3 0
    rw [blockBp_afm]
    norm_num
  · show blockBp afmModel ![0, 0, 0] (1 : Fin 2) (1 : Fin 2) =
      (!![(2 : ℂ), 0, 0, -2; 0, 2, -2, 0; 0, -2, 2, 0; -2, 0, 0, 2]) 3 1
    rw [blockBp_afm]
    norm_num
  · show blockAp afmModel ![0, 0, 0] (1 : Fin 2) (0 : Fin 2) =
      (!![(2 : ℂ), 0, 0, -2; 0, 2, -2, 0; 0, -2, 2, 0; -2, 0, 0, 2]) 3 2
    rw [blockAp_afm]
    norm_num
  · show blockAp afmModel ![0, 0, 0] (1 : Fin 2) (1 : Fin 2) =
      (!![(2 : ℂ), 0, 0, -2; 0, 2, -2, 0; 0, -2, 2, 0; -2, 0, 0, 2]) 3 3
    rw [blockAp_afm]
    norm_num

lemma cholSub_afmH :
    cholSub (!![(2 : ℂ), 0, 0, -2; 0, 2, -2, 0; 0, -2, 2, 0; -2, 0, 0, 2]) =
      !![(2 : ℂ), -2, 0; -2, 2, 0; 0, 0, 0] := by
  have hpiv : cholPiv (!![(2 : ℂ), 0, 0, -2; 0, 2, -2, 0; 0, -2, 2, 0; -2, 0, 0, 2]) = 2 := by
    simp [cholPiv]
  have hc0 : cholCol (!![(2 : ℂ), 0, 0, -2; 0, 2, -2, 0; 0, -2, 2, 0; -2, 0, 0, 2]) 0 = 0 := by
    simp [cholCol, hpiv, Matrix.vecHead, Matrix.vecTail]
  have hc1 : cholCol (!![(2 : ℂ), 0, 0, -2; 0, 2, -2, 0; 0, -2, 2, 0; -2, 0, 0, 2]) 1 = 0 := by
    simp [cholCol, hpiv, Matrix.vecHead, Matrix.vecTail]
  have hc2 : cholCol (!![(2 : ℂ), 0, 0, -2; 0, 2, -2, 0; 0, -2, 2, 0; -2, 0, 0, 2]) 2 =
      -2 / ((Real.sqrt 2 : ℝ) : ℂ) := by
    simp [cholCol, hpiv, Matrix.vecHead, Matrix.vecTail]
  ext i j
  fin_cases i <;> fin_cases j
  · simp [cholSub, hc0, Matrix.vecHead, Matrix.vecTail]
  · simp [cholSub, hc0, hc1, Matrix.vecHead, Matrix.vecTail]
  · simp [cholSub, hc0, hc2, Matrix.vecHead, Matrix.vecTail]
  · simp [cholSub, hc0, hc1, Matrix.vecHead, Matrix.vecTail]
  · simp [cholSub, hc1, Matrix.vecHead, Matrix.vecTail]
  · simp [cholSub, hc1, hc2, Matrix.vecHead, Matrix.vecTail]
  · simp [cholSub, hc0, hc2, Matrix.vecHead, Matrix.vecTail]
  · simp [cholSub, hc1, hc2, Matrix.vecHead, Matrix.vecTail]
  · show cholSub (!![(2 : ℂ), 0, 0, -2; 0, 2, -2, 0; 0, -2, 2, 0; -2, 0, 0, 2]) (2 : Fin 3) (2 : Fin 3) =
      (!![(2 : ℂ), -2, 0; -2, 2, 0; 0, 0, 0]) 2 2
    simp only [cholSub, hc2]
    rw [col_sq_two]
    simp [Matrix.vecHead, Matrix.vecTail]

lemma cholSub_afmN :
    cholSub (!![(2 : ℂ), -2, 0; -2, 2, 0; 0, 0, 0]) = 0 := by
  have hpiv : cholPiv (!![(2 : ℂ), -2, 0; -2, 2, 0; 0, 0, 0]) = 2 := by
    simp [cholPiv]
  have hc0 : cholCol (!![(2 : ℂ), -2, 0; -2, 2, 0; 0, 0, 0]) 0 =
      -2 / ((Real.sqrt 2 : ℝ) : ℂ) := by
    simp [cholCol, hpiv, Matrix.vecHead, Matrix.vecTail]
  have hc1 : cholCol (!![(2 : ℂ), -2, 0; -2, 2, 0; 0, 0, 0]) 1 = 0 := by
    simp [cholCol, hpiv, Matrix.vecHead, Matrix.vecTail]
  ext i j
  fin_cases i <;> fin_cases j
  · show cholSub (!![(2 : ℂ), -2, 0; -2, 2, 0; 0, 0, 0]) (0 : Fin 2) (0 : Fin 2) =
      (0 : Matrix (Fin 2) (Fin 2) ℂ) 0 0
    simp only [cholSub, hc0]
    rw [col_sq_two]
    simp [Matrix.vecHead, Matrix.vecTail]
  · simp [cholSub, hc0, hc1, Matrix.vecHead, Matrix.vecTail]
  · simp [cholSub, hc0, hc1, Matrix.vecHead, Matrix.vecTail]
  · simp [cholSub, hc1, Matrix.vecHead, Matrix.vecTail]

lemma cholesky_afmH :
    cholesky (!![(2 : ℂ), 0, 0, -2; 0, 2, -2, 0; 0, -2, 2, 0; -2, 0, 0, 2]) =
      .error .linAlg := by
  have hpiv4 : cholPiv (!![(2 : ℂ), 0, 0, -2; 0, 2, -2, 0; 0, -2, 2, 0; -2, 0, 0, 2]) = 2 := by
    simp [cholPiv]
  have hpiv3 : cholPiv (!![(2 : ℂ), -2, 0; -2, 2, 0; 0, 0, 0]) = 2 := by
    simp [cholPiv]
  have hpiv2 : cholPiv (0 : Matrix (Fin 2) (Fin 2) ℂ) = 0 := by
    simp [cholPiv]
  rw [cholesky_succ, hpiv4, if_pos (by norm_num : (0 : ℝ) < 2), cholSub_afmH,
    cholesky_succ, hpiv3, if_pos (by norm_num : (0 : ℝ) < 2), cholSub_afmN,
    cholesky_succ, hpiv2, if_neg (lt_irrefl (0 : ℝ))]
  rfl

lemma getEnergies_afm_zero :
    getEnergies afmModel ![0, 0, 0] = .error .linAlg := by
  have hch : cholesky (HamF afmModel ![0, 0, 0]) = .error .linAlg := by
    rw [hamF_afm]
    exact cholesky_afmH
  rw [getEnergies]
  exact bogoliubov_err hch

/-- C5 (amended): for the two-site antiferromagnetic chain model of the code
(site 0 with moment `+z`, site 1 with moment `-z`, couplings with `J = +1`
between them), `get_energies` at `Q = (0,0,0)` does NOT return the
doubly-degenerate Goldstone branch `E = 0`: the assembled Hamiltonian is
singular there (the Cholesky recursion reaches a zero pivot), so
`numpy.linalg.cholesky` raises `LinAlgError`, which propagates out of
`get_energies`. -/
theorem afm_gamma_point_raises_linalg :
    getEnergies afmModel ![0, 0, 0] = .error .linAlg :=
  getEnergies_afm_zero

/-- C5 (counterexample to the claimed Goldstone output): at the Gamma point
the antiferromagnetic solve produces no energy list at all — in particular it
does not return the claimed `E = 0` branch. -/
theorem afm_gamma_point_no_goldstone :
    (getEnergies afmModel ![0, 0, 0]).toOption = none := by
  rw [getEnergies_afm_zero]
  rfl

/-! ### Particle-hole symmetry: general spectral lemmas -/

lemma charmatrix_conj {n : Type} [DecidableEq n] [Fintype n]
    (P A : Matrix n n ℂ) (hP : IsUnit P.det) :
    charmatrix (P⁻¹ * A * P) =
      (P⁻¹.map Polynomial.C) * charmatrix A * (P.map Polynomial.C) := by
  have hPP : (P⁻¹.map (Polynomial.C : ℂ → ℂ[X])) * P.map Polynomial.C = 1 := by
    rw [← Matrix.map_mul, Matrix.nonsing_inv_mul P hP]
    exact Matrix.map_one _ (map_zero _) (map_one _)
  rw [charmatrix, charmatrix, Matrix.mul_sub, Matrix.sub_mul]
  congr 1
  · rw [Matrix.mul_assoc,
      Matrix.scalar_commute X (fun r => Commute.all X r) (P.map Polynomial.C)]
    rw [← Matrix.mul_assoc, hPP, Matrix.one_mul]
  · rw [RingHom.mapMatrix_apply, RingHom.mapMatrix_apply, ← Matrix.map_mul,
      ← Matrix.map_mul]

lemma charpoly_conj {n : Type} [DecidableEq n] [Fintype n]
    (P A : Matrix n n ℂ) (hP : IsUnit P.det) :
    (P⁻¹ * A * P).charpoly = A.charpoly := by
  have hdet : (P⁻¹.map (Polynomial.C : ℂ → ℂ[X])).det *
      (P.map Polynomial.C).det = 1 := by
    rw [← Matrix.det_mul, ← Matrix.map_mul, Matrix.nonsing_inv_mul P hP]
    rw [Matrix.map_one _ (map_zero _) (map_one _), Matrix.det_one]
  rw [Matrix.charpoly, Matrix.charpoly, charmatrix_conj P A hP, Matrix.det_mul,
    Matrix.det_mul]
  linear_combination (charmatrix A).det * hdet

lemma charmatrix_neg {n : Type} [DecidableEq n] [Fintype n] (M : Matrix n n ℂ) :
    (charmatrix M).map (Polynomial.eval₂RingHom (Polynomial.C : ℂ →+* ℂ[X]) (-X)) =
      -(charmatrix (-M)) := by
  ext i j
  rcases eq_or_ne i j with rfl | hij
  · simp only [Matrix.map_apply, charmatrix_apply_eq, Matrix.neg_apply,
      coe_eval₂RingHom, eval₂_sub, eval₂_X, eval₂_C, map_neg]
    ring
  · simp [charmatrix_apply_ne _ _ _ hij, Matrix.map_apply, Matrix.neg_apply,
      charmatrix_apply_ne]

lemma charpoly_neg {n : Type} [DecidableEq n] [Fintype n] (M : Matrix n n ℂ) :
    (-M).charpoly = (-1 : ℂ[X]) ^ Fintype.card n * (M.charpoly).comp (-X) := by
  have h1 : (charmatrix (-M)) = -((charmatrix M).map
      (Polynomial.eval₂RingHom (Polynomial.C : ℂ →+* ℂ[X]) (-X))) := by
    rw [charmatrix_neg, neg_neg]
  rw [Matrix.charpoly, h1, Matrix.det_neg, ← RingHom.mapMatrix_apply,
    ← RingHom.map_det]
  rfl

/-- The eigenvalues of `-M` are the negated eigenvalues of `M` (with
multiplicity, over ℂ). -/
lemma roots_charpoly_neg {n : Type} [DecidableEq n] [Fintype n]
    (M : Matrix n n ℂ) :
    (-M).charpoly.roots = M.charpoly.roots.map (fun r => -r) := by
  have hm : M.charpoly.Monic := Matrix.charpoly_monic M
  have hs : M.charpoly.Splits (RingHom.id ℂ) := IsAlgClosed.splits_codomain _
  have hcard : M.charpoly.roots.card = Fintype.card n := by
    rw [(Polynomial.splits_iff_card_roots).mp hs, Matrix.charpoly_natDegree_eq_dim]
  have hprod : M.charpoly = (M.charpoly.roots.map fun a => X - C a).prod :=
    Polynomial.eq_prod_roots_of_monic_of_splits_id hm hs
  have hcomp : (M.charpoly).comp (-X) =
      (-1 : ℂ[X]) ^ Fintype.card n *
        (M.charpoly.roots.map fun a => X - C (-a)).prod := by
    conv_lhs => rw [hprod]
    rw [Polynomial.multiset_prod_comp, Multiset.map_map]
    rw [Multiset.map_congr rfl fun a _ => (by
      simp only [Function.comp_apply, sub_comp, X_comp, C_comp, map_neg]
      ring : ((fun p : ℂ[X] => p.comp (-X)) ∘ fun a : ℂ => X - C a) a =
        (-1 : ℂ[X]) * (X - C (-a)))]
    rw [show (fun a : ℂ => (-1 : ℂ[X]) * (X - C (-a))) =
        (fun a : ℂ => (fun _ : ℂ => (-1 : ℂ[X])) a * (fun b : ℂ => X - C (-b)) a)
      from rfl]
    rw [Multiset.prod_map_mul, Multiset.map_const', Multiset.prod_replicate, hcard]
  rw [charpoly_neg, hcomp, ← mul_assoc, ← mul_pow]
  rw [show ((-1 : ℂ[X]) * -1) = 1 by ring, one_pow, one_mul]
  have h2 : (M.charpoly.roots.map fun a => X - C (-a)) =
      ((M.charpoly.roots.map fun r => -r).map fun a => X - C a) := by
    rw [Multiset.map_map]
    rfl
  rw [h2, Polynomial.roots_multiset_prod_X_sub_C]

/-- The eigenvalues of the entrywise conjugate of `M` are the conjugated
eigenvalues of `M`. -/
lemma roots_charpoly_map_conj {n : Type} [DecidableEq n] [Fintype n]
    (M : Matrix n n ℂ) :
    ((M.map (starRingEnd ℂ)).charpoly).roots =
      M.charpoly.roots.map (starRingEnd ℂ) := by
  rw [Matrix.charpoly_map]
  exact Polynomial.roots_map _ (IsAlgClosed.splits_codomain _)

lemma charpoly_submatrix_swap {N : ℕ}
    (M : Matrix (Fin N ⊕ Fin N) (Fin N ⊕ Fin N) ℂ) :
    (M.submatrix Sum.swap Sum.swap).charpoly = M.charpoly := by
  have h : M.submatrix Sum.swap Sum.swap =
      reindex (Equiv.sumComm (Fin N) (Fin N)) (Equiv.sumComm (Fin N) (Fin N)) M :=
    rfl
  rw [h, Matrix.charpoly_reindex]

/-! ### Particle-hole symmetry: the Hamiltonian at `-Q` -/

lemma dotProduct_neg_vec (d : Fin 3 → ℝ) (Q : Fin 3 → ℝ) :
    (d ⬝ᵥ (-Q)) = -(d ⬝ᵥ Q) := by
  simp [dotProduct, Finset.sum_add_distrib, mul_comm]

lemma phase_neg {N : ℕ} (c : Coupling N) (Q : Fin 3 → ℝ) :
    phase c (-Q) = star (phase c Q) := by
  rw [phase, phase, Complex.star_def, ← Complex.exp_conj]
  congr 1
  rw [dotProduct_neg_vec, RingHom.map_mul, RingHom.map_neg, Complex.conj_I,
    Complex.conj_ofReal]
  push_cast
  ring

lemma Jft_neg {N : ℕ} (c : Coupling N) (Q : Fin 3 → ℝ) (a b : Fin 3) :
    Jft c (-Q) a b = star (Jft c Q a b) := by
  simp only [Jft, Matrix.smul_apply, smul_eq_mul, star_mul']
  rw [phase_neg]
  congr 1
  simp [mapC, Complex.star_def, Complex.conj_ofReal]

lemma Jfourier_neg {N : ℕ} (cs : List (Coupling N)) (Q : Fin 3 → ℝ)
    (i j : Fin N) (a b : Fin 3) :
    Jfourier cs (-Q) i j a b = star (Jfourier cs Q i j a b) := by
  induction cs with
  | nil => simp [Jfourier]
  | cons c cs ih =>
    simp only [Jfourier, List.map_cons, List.sum_cons, Matrix.add_apply] at ih ⊢
    rw [star_add, ← ih]
    congr 1
    rw [star_add]
    congr 1
    · split_ifs <;> simp [Jft_neg]
    · split_ifs <;>
        simp [Matrix.conjTranspose_apply, Jft_neg, star_star]

lemma dot_star_matrix (x y : Fin 3 → ℂ) (M M2 : Matrix (Fin 3) (Fin 3) ℂ)
    (h : ∀ a b, M2 a b = star (M a b)) :
    x ⬝ᵥ M2 *ᵥ y = star (star x ⬝ᵥ M *ᵥ star y) := by
  simp only [dotProduct, mulVec, Finset.mul_sum, star_sum]
  refine Finset.sum_congr rfl fun a _ => Finset.sum_congr rfl fun b _ => ?_
  rw [h]
  simp only [star_mul', star_star, Pi.star_apply]

lemma star_ofReal_c (r : ℝ) : star ((r : ℝ) : ℂ) = ((r : ℝ) : ℂ) := by
  rw [Complex.star_def, Complex.conj_ofReal]

lemma blockA_neg (m : Model) (Q : Fin 3 → ℝ) (i j : Fin m.N) :
    blockA m (-Q) i j = star (blockAp m Q i j) := by
  simp only [blockA, blockAp]
  rw [star_add, star_mul', star_ofReal_c]
  congr 1
  · rw [dot_star_matrix _ _ (Jfourier m.couplings Q i j) _
      (fun a b => Jfourier_neg m.couplings Q i j a b), star_star]
  · rcases eq_or_ne j i with h | h
    · simp [h, diagCorr_star]
    · simp [h]

lemma blockAp_neg (m : Model) (Q : Fin 3 → ℝ) (i j : Fin m.N) :
    blockAp m (-Q) i j = star (blockA m Q i j) := by
  simp only [blockA, blockAp]
  rw [star_add, star_mul', star_ofReal_c]
  congr 1
  · rw [dot_star_matrix _ _ (Jfourier m.couplings Q i j) _
      (fun a b => Jfourier_neg m.couplings Q i j a b), star_star]
  · rcases eq_or_ne j i with h | h
    · simp [h, diagCorr_star]
    · simp [h]

lemma blockB_neg (m : Model) (Q : Fin 3 → ℝ) (i j : Fin m.N) :
    blockB m (-Q) i j = star (blockBp m Q i j) := by
  simp only [blockB, blockBp]
  rw [star_star]
  congr 1
  rw [dot_star_matrix _ _ (Jfourier m.couplings Q i j) _
    (fun a b => Jfourier_neg m.couplings Q i j a b)]
  rw [star_dot_mul_vec, star_star, star_star,
    ← Jfourier_conjTranspose m.couplings Q i j]

lemma blockBp_neg (m : Model) (Q : Fin 3 → ℝ) (i j : Fin m.N) :
    blockBp m (-Q) i j = star (blockB m Q i j) := by
  simp only [blockB, blockBp]
  rw [star_mul', star_mul', star_ofReal_c]
  congr 1
  rw [dot_star_matrix _ _ (Jfourier m.couplings Q j i) _
    (fun a b => Jfourier_neg m.couplings Q j i a b)]
  congr 1
  rw [star_dot_mul_vec, star_star, star_star,
    ← Jfourier_conjTranspose m.couplings Q j i]

lemma hamS_neg (m : Model) (Q : Fin 3 → ℝ) :
    HamS m (-Q) =
      ((HamS m Q).submatrix Sum.swap Sum.swap).map (starRingEnd ℂ) := by
  rw [HamS, HamS, fromBlocks_submatrix_sum_swap_sum_swap, Matrix.fromBlocks_map]
  have h1 : blockA m (-Q) = (blockAp m Q).map (starRingEnd ℂ) := by
    ext i j
    rw [Matrix.map_apply, blockA_neg]
    rfl
  have h2 : blockB m (-Q) = (blockBp m Q).map (starRingEnd ℂ) := by
    ext i j
    rw [Matrix.map_apply, blockB_neg]
    rfl
  have h3 : blockBp m (-Q) = (blockB m Q).map (starRingEnd ℂ) := by
    ext i j
    rw [Matrix.map_apply, blockBp_neg]
    rfl
  have h4 : blockAp m (-Q) = (blockA m Q).map (starRingEnd ℂ) := by
    ext i j
    rw [Matrix.map_apply, blockAp_neg]
    rfl
  rw [h1, h2, h3, h4]

lemma gS_swap (N : ℕ) : (gS N).submatrix Sum.swap Sum.swap = -(gS N) := by
  rw [gS, fromBlocks_submatrix_sum_swap_sum_swap]
  ext a b
  rcases a with a | a <;> rcases b with b | b <;>
    simp [fromBlocks, Matrix.neg_apply]

lemma gS_map_conj (N : ℕ) : (gS N).map (starRingEnd ℂ) = gS N := by
  ext a b
  rcases a with a | a <;> rcases b with b | b <;>
    simp [gS, fromBlocks, Matrix.map_apply, Matrix.one_apply, apply_ite,
      Matrix.neg_apply]

lemma hamS_mul_gS_neg (m : Model) (Q : Fin 3 → ℝ) :
    HamS m (-Q) * gS m.N =
      -(((HamS m Q * gS m.N).submatrix Sum.swap Sum.swap).map (starRingEnd ℂ)) := by
  have hsub : (HamS m Q * gS m.N).submatrix Sum.swap Sum.swap =
      (HamS m Q).submatrix Sum.swap Sum.swap *
        (gS m.N).submatrix Sum.swap Sum.swap := by
    rw [show (Sum.swap : Fin m.N ⊕ Fin m.N → Fin m.N ⊕ Fin m.N) =
      ⇑(Equiv.sumComm (Fin m.N) (Fin m.N)) from rfl]
    rw [Matrix.submatrix_mul_equiv]
  have hneg : ((-(gS m.N)).map (starRingEnd ℂ)) =
      -((gS m.N).map (starRingEnd ℂ)) := by
    ext a b
    simp [Matrix.map_apply, Matrix.neg_apply]
  rw [hsub, Matrix.map_mul, gS_swap, hneg, gS_map_conj, Matrix.mul_neg,
    neg_neg, hamS_neg]

/-! ### Particle-hole symmetry: the solver output -/

lemma hamF_entry_star (m : Model) (Q : Fin 3 → ℝ) (a b : Fin (m.N + m.N)) :
    HamF m Q a b = star (HamF m Q b a) := by
  have h := congrFun (congrFun (hamS_herm m Q) (finSumFinEquiv.symm a))
    (finSumFinEquiv.symm b)
  rw [conjTranspose_apply] at h
  simp only [HamF, reindex_apply, submatrix_apply]
  rw [← h]

lemma cholesky_isUnit_det {n : ℕ} (H L : Matrix (Fin n) (Fin n) ℂ)
    (hH : ∀ i j, H i j = star (H j i)) (h : cholesky H = .ok L) :
    IsUnit L.det := by
  obtain ⟨hlow, hdiag, _⟩ := cholesky_spec H hH L h
  have hdet : L.det = ∏ i, L i i := by
    apply Matrix.det_of_lowerTriangular
    intro i j hij
    exact hlow i j (Fin.lt_def.mp (OrderDual.toDual_lt_toDual.mp hij))
  rw [hdet]
  rw [isUnit_iff_ne_zero]
  refine Finset.prod_ne_zero_iff.mpr fun i _ => ?_
  intro h0
  have := (hdiag i).1
  rw [h0] at this
  simp at this

lemma bogoliubov_charpoly {N : ℕ} (H L : Matrix (Fin (N + N)) (Fin (N + N)) ℂ)
    (hH : ∀ i j, H i j = star (H j i)) (h : cholesky H = .ok L) :
    (Lᴴ * gF N * L).charpoly = (H * gF N).charpoly := by
  obtain ⟨hlow, hdiag, hmul⟩ := cholesky_spec H hH L h
  have hdet : IsUnit L.det := cholesky_isUnit_det H L hH h
  have hkey : Lᴴ * gF N * L = L⁻¹ * (H * gF N) * L := by
    rw [← hmul]
    have h1 : L⁻¹ * (L * Lᴴ * gF N) * L =
        (L⁻¹ * L) * (Lᴴ * gF N * L) := by
      simp only [Matrix.mul_assoc]
    rw [h1, Matrix.nonsing_inv_mul L hdet, Matrix.one_mul]
  rw [hkey, charpoly_conj L (H * gF N) hdet]

lemma bogoliubov_ok_inv {N : ℕ} {H : Matrix (Fin (N + N)) (Fin (N + N)) ℂ}
    {Es : Multiset ℝ} (h : bogoliubov N H = .ok Es) :
    ∃ L, cholesky H = .ok L ∧
      Es = (((Lᴴ * gF N * L).charpoly.roots).map Complex.re) := by
  rw [bogoliubov] at h
  cases hc : cholesky H with
  | ok L =>
    rw [hc] at h
    exact ⟨L, rfl, ((Except.ok.injEq _ _).mp h).symm⟩
  | error e =>
    rw [hc] at h
    exact absurd h (by simp)

lemma hamF_mul_gF (m : Model) (Q : Fin 3 → ℝ) :
    HamF m Q * gF m.N =
      reindex finSumFinEquiv finSumFinEquiv (HamS m Q * gS m.N) := by
  rw [HamF, gF, reindex_apply, reindex_apply, Matrix.submatrix_mul_equiv,
    reindex_apply]

/-- The energies extracted by the solver at `Q` are the real parts of the
eigenvalues of `HamS * gS`; at `-Q` they are exactly negated. -/
lemma energies_eq_neg (m : Model) (Q : Fin 3 → ℝ) (L1 L2 ER1 ER2)
    (h1 : cholesky (HamF m Q) = .ok L1)
    (h2 : cholesky (HamF m (-Q)) = .ok L2)
    (hE1 : ER1 = (((L1ᴴ * gF m.N * L1).charpoly.roots).map Complex.re))
    (hE2 : ER2 = (((L2ᴴ * gF m.N * L2).charpoly.roots).map Complex.re)) :
    ER2 = ER1.map (fun E => -E) := by
  have hch1 : (L1ᴴ * gF m.N * L1).charpoly = (HamS m Q * gS m.N).charpoly := by
    rw [bogoliubov_charpoly (HamF m Q) L1 (hamF_entry_star m Q) h1, hamF_mul_gF,
      Matrix.charpoly_reindex]
  have hch2 : (L2ᴴ * gF m.N * L2).charpoly =
      (HamS m (-Q) * gS m.N).charpoly := by
    rw [bogoliubov_charpoly (HamF m (-Q)) L2 (hamF_entry_star m (-Q)) h2,
      hamF_mul_gF, Matrix.charpoly_reindex]
  have hroots : (HamS m (-Q) * gS m.N).charpoly.roots =
      ((HamS m Q * gS m.N).charpoly.roots).map
        (fun r => -((starRingEnd ℂ) r)) := by
    rw [hamS_mul_gS_neg, roots_charpoly_neg]
    rw [roots_charpoly_map_conj, charpoly_submatrix_swap, Multiset.map_map]
    rfl
  rw [hE2, hch2, hroots, hE1, hch1, Multiset.map_map, Multiset.map_map]
  refine Multiset.map_congr rfl fun r _ => ?_
  simp [Complex.neg_re, Complex.conj_re]

/-- C6: for every model (all interaction matrices in this development are
purely real: scalar exchange `J` plus the real DMI skew part) and every `Q`
at which both the solve at `Q` and the solve at `-Q` succeed, the multiset of
energies returned by `get_energies` at `-Q` is exactly the negation of the
multiset returned at `Q`. -/
theorem particle_hole_symmetry (m : Model) (Q : Fin 3 → ℝ)
    (Es Es2 : Multiset ℝ)
    (h1 : getEnergies m Q = .ok Es)
    (h2 : getEnergies m (-Q) = .ok Es2) :
    Es2 = Es.map (fun E => -E) := by
  rw [getEnergies] at h1 h2
  obtain ⟨L1, hc1, hE1⟩ := bogoliubov_ok_inv h1
  obtain ⟨L2, hc2, hE2⟩ := bogoliubov_ok_inv h2
  exact energies_eq_neg m Q L1 L2 Es Es2 hc1 hc2 hE1 hE2

lemma getEnergies_ferro_neg_half :
    getEnergies ferroModel (-![1 / 2, 0, 0]) = .ok ({4, -4} : Multiset ℝ) := by
  have hE : E0 ((-![(1 : ℝ) / 2, 0, 0]) 0) = 4 := by
    rw [show ((-![(1 : ℝ) / 2, 0, 0]) 0) = -(1 / 2) from rfl, E0,
      show (2 : ℝ) * π * -(1 / 2) = -π by ring, Real.cos_neg, Real.cos_pi]
    norm_num
  have h := getEnergies_ferro (-![1 / 2, 0, 0]) (by rw [hE]; norm_num)
  rw [h, hE]

/-- Witness for C6 on the ferromagnetic chain at `Q = (1/2, 0, 0)`:
both solves succeed with energies `{4, -4}`, and `{4, -4}` is indeed the
negation of `{4, -4}` as a multiset. -/
theorem particle_hole_symmetry_witness :
    ({4, -4} : Multiset ℝ) = ({4, -4} : Multiset ℝ).map (fun E => -E) :=
  particle_hole_symmetry ferroModel ![1 / 2, 0, 0] {4, -4} {4, -4}
    getEnergies_ferro_half getEnergies_ferro_neg_half

end

end Magdyn
